import Mathlib

/-!
Verification of the email-extraction script `scripts/pdf_to_csv.py`.

The script is embedded shallowly over `List Char`:
* Python `str` values become `List Char`; `s.lower()` becomes `lowerL`
  (Lean's `Char.toLower`, i.e. the ASCII fragment of Python's casefolding);
* `str.find` becomes `findSub` (leftmost occurrence or `none`);
* `str.strip()` / `str.strip('"')` become `pyStrip` / `stripQuotes`,
  with Python's whitespace class modelled by its ASCII members;
* `str.splitlines()` becomes `pySplitlines` (handling `\n`, `\r`, `\r\n`,
  `\x0b`, `\x0c`; the rare Unicode line separators are not modelled);
* the two regular expressions of `remove_trailing_text` are modelled by
  dedicated leftmost-match searches (`denSearch`, `onSearch`) that spell out
  the backtracking semantics of `re.search` for those two patterns, with
  `\w` modelled by its ASCII fragment and `.` excluding `'\n'`;
* `dateutil.parser.parse` (an external library) is abstracted: the date
  normalizer used inside `parse_first_email` is a parameter
  `nd : List Char → Option (List Char)`, and `normalize_date` itself is
  modelled over the abstract result of the fuzzy parse (`PyDatetime`).
-/

/-- The characters of a string literal. -/
def cl (s : String) : List Char := s.data

/-- Python's whitespace class `\s`, restricted to its ASCII members
(space, tab, newline, carriage return, vertical tab, form feed). -/
def pySpaceB (c : Char) : Bool :=
  c = ' ' || c = '\t' || c = '\n' || c = '\r' || c = '\x0b' || c = '\x0c'

/-- `str.lower()` on one character (ASCII fragment). -/
def lowCh (c : Char) : Char := c.toLower

/-- `str.lower()`. -/
def lowerL (l : List Char) : List Char := l.map lowCh

/-- `hay.find(pat)`: index of the leftmost occurrence, `none` when absent
(Python returns `-1`; the script only ever compares that result with `-1`
or slices with it, so `Option Nat` is a faithful rendering). -/
def findSub (pat : List Char) : List Char → Option Nat
  | [] => if pat.isPrefixOf ([] : List Char) then some 0 else none
  | c :: t =>
    if pat.isPrefixOf (c :: t) then some 0 else (findSub pat t).map (· + 1)

/-- `pat in hay` / `hay.find(pat) != -1`. -/
def containsSub (pat l : List Char) : Bool := (findSub pat l).isSome

/-- Removes trailing characters satisfying `p` (the tail half of
Python's `str.strip`). -/
def stripEnd (p : Char → Bool) : List Char → List Char
  | [] => []
  | c :: t =>
    let r := stripEnd p t
    if r = [] && p c then [] else c :: r

/-- Python `str.strip` with an explicit character class. -/
def pyStripBy (p : Char → Bool) (l : List Char) : List Char :=
  stripEnd p (l.dropWhile p)

/-- `line.strip()`. -/
def pyStrip (l : List Char) : List Char := pyStripBy pySpaceB l

/-- `value.strip('"')`. -/
def stripQuotes (l : List Char) : List Char := pyStripBy (fun c => c = '"') l

/-- `line.split(":", 1)[1]`: everything after the first colon.  The script
only evaluates this under a `startswith` guard that guarantees a colon is
present, so the total fallback (no colon → `[]`) is never reached there. -/
def afterFirstColon : List Char → List Char
  | [] => []
  | c :: t => if c = ':' then t else afterFirstColon t

/-- Line-terminator characters handled by `pySplitlines`. -/
def isLineBreak (c : Char) : Bool :=
  c = '\n' || c = '\x0b' || c = '\x0c'

/-- `text.splitlines()`: splits at `\n`, `\r`, `\r\n`, `\x0b`, `\x0c`;
no trailing empty line for a trailing terminator; `[] → []`. -/
def pySplitlines : List Char → List (List Char)
  | [] => []
  | '\r' :: '\n' :: t => [] :: pySplitlines t
  | '\r' :: t => [] :: pySplitlines t
  | c :: t =>
    if isLineBreak c then [] :: pySplitlines t
    else
      match pySplitlines t with
      | [] => [[c]]
      | l :: ls => (c :: l) :: ls

/-! ## `clean_text` -/

/-- `text.replace("=br>", "\n")` (non-overlapping, left to right). -/
def replBr : List Char → List Char
  | '=' :: 'b' :: 'r' :: '>' :: t => '\n' :: replBr t
  | c :: t => c :: replBr t
  | [] => []

/-- `re.sub(r"=\d{2,3}", "", text)`: at each position, `=` followed by two
or three digits (greedy) is deleted; the scan resumes after the match. -/
def subEqDigits : List Char → List Char
  | [] => []
  | '=' :: a :: b :: d :: rest2 =>
    if a.isDigit && b.isDigit then
      if d.isDigit then subEqDigits rest2 else subEqDigits (d :: rest2)
    else '=' :: subEqDigits (a :: b :: d :: rest2)
  | '=' :: a :: b :: [] =>
    if a.isDigit && b.isDigit then [] else '=' :: subEqDigits [a, b]
  | c :: t => c :: subEqDigits t

/-- `text.replace("=8E", "")`. -/
def remove8E : List Char → List Char
  | '=' :: '8' :: 'E' :: t => remove8E t
  | c :: t => c :: remove8E t
  | [] => []

/-- `re.sub(r"\s+", " ", text)`: each maximal whitespace run becomes one
space.  `prevSpace` records whether the previous character was part of a
run whose single space has already been emitted. -/
def collapseGo (prevSpace : Bool) : List Char → List Char
  | [] => []
  | c :: t =>
    if pySpaceB c then
      if prevSpace then collapseGo true t else ' ' :: collapseGo true t
    else c :: collapseGo false t

/-- `re.sub(r"\s+", " ", text)`. -/
def collapseWs (l : List Char) : List Char := collapseGo false l

/-- `re.sub(r"\r\n", "\n", text)`. -/
def crlfToLf : List Char → List Char
  | [] => []
  | c :: t =>
    if c = '\r' then
      match t with
      | '\n' :: t' => '\n' :: crlfToLf t'
      | t' => '\r' :: crlfToLf t'
    else c :: crlfToLf t

/-- `clean_text` from the script: soft-break replacement, artifact
removal, whitespace collapsing, CRLF normalization, strip. -/
def clean_text (l : List Char) : List Char :=
  pyStrip (crlfToLf (collapseWs (remove8E (subEqDigits (replBr l)))))

/-! ## `normalize_date`

`dateutil.parser.parse(date_str, fuzzy=True)` is an external library call;
its outcome is abstracted as `Option PyDatetime`: `none` when the parse
raises (the `except` branch), `some dt` otherwise.  A datetime is its
wall-clock reading in seconds since 1970-01-01 00:00:00 plus the optional
`utcoffset` in seconds (`none` models a naive datetime). -/

structure PyDatetime where
  naive : Int
  tzOffset : Option Int
deriving DecidableEq

/-- The instant (UTC seconds since the epoch) denoted by an aware
datetime; a naive one is read at face value. -/
def PyDatetime.instant (d : PyDatetime) : Int := d.naive - d.tzOffset.getD 0

/-- Proleptic-Gregorian civil date from a day count relative to
1970-01-01 (Howard Hinnant's `civil_from_days`). -/
def civilFromDays (z : Int) : Int × Nat × Nat :=
  let z' := z + 719468
  let era := Int.fdiv z' 146097
  let doe := (z' - era * 146097).toNat
  let yoe := (doe - doe / 1460 + doe / 36524 - doe / 146096) / 365
  let y : Int := (yoe : Int) + era * 400
  let doy := doe - (365 * yoe + yoe / 4 - yoe / 100)
  let mp := (5 * doy + 2) / 153
  let d := doy - (153 * mp + 2) / 5 + 1
  let m := if mp < 10 then mp + 3 else mp - 9
  (if m ≤ 2 then y + 1 else y, m, d)

/-- Zero-padded decimal rendering. -/
def padNum (width n : Nat) : List Char :=
  let s := (Nat.toDigits 10 n)
  List.replicate (width - s.length) '0' ++ s

/-- `datetime.isoformat()` of the date-time part (the script's datetimes
have whole-second precision). -/
def isoRender (secs : Int) : List Char :=
  let days := Int.fdiv secs 86400
  let sod := (secs - 86400 * days).toNat
  let ymd := civilFromDays days
  let y := ymd.1
  let ysign : List Char := if y < 0 then ['-'] else []
  ysign ++ padNum 4 y.natAbs ++ ['-'] ++ padNum 2 ymd.2.1 ++ ['-'] ++ padNum 2 ymd.2.2 ++
    ['T'] ++ padNum 2 (sod / 3600) ++ [':'] ++ padNum 2 (sod / 60 % 60) ++ [':'] ++
    padNum 2 (sod % 60)

/-- The trailing UTC-offset part of `isoformat` (absent for naive
datetimes; the script always attaches `timezone.utc` before formatting). -/
def offsetRender : Option Int → List Char
  | none => []
  | some off =>
    let sign : List Char := if off < 0 then ['-'] else ['+']
    let a := off.natAbs
    sign ++ padNum 2 (a / 3600) ++ [':'] ++ padNum 2 (a / 60 % 60) ++
      (if a % 60 = 0 then [] else [':'] ++ padNum 2 (a % 60))

/-- `dt.isoformat()`. -/
def isoformat (d : PyDatetime) : List Char :=
  isoRender d.naive ++ offsetRender d.tzOffset

/-- `normalize_date` from the script, over the abstract parse outcome:
a naive result gets `tzinfo=timezone.utc` attached as-is
(`dt.replace(tzinfo=timezone.utc)`); an aware result is converted to the
same instant in UTC (`dt.astimezone(timezone.utc)`); any parse failure
yields `none`. -/
def normalize_date (parsed : Option PyDatetime) : Option (List Char) :=
  match parsed with
  | none => none
  | some dt =>
    let dtUtc : PyDatetime :=
      match dt.tzOffset with
      | none => { dt with tzOffset := some 0 }
      | some off => { naive := dt.naive - off, tzOffset := some 0 }
    some (isoformat dtUtc)

/-- Python's `x or y` for the string-valued `utc_date or raw_date`:
`none` and the empty string are falsy. -/
def pyOrElse (o : Option (List Char)) (d : List Char) : List Char :=
  match o with
  | some v => if v = [] then d else v
  | none => d

/-! ## `parse_first_email` -/

/-- The `headers` dictionary of `parse_first_email`. -/
structure Headers where
  From : List Char := []
  To : List Char := []
  Sent : List Char := []
  Subject : List Char := []
  Content : List Char := []
deriving DecidableEq

/-- The initial `headers` dictionary (every field the empty string). -/
def h0 : Headers := {}

/-- All three mandatory fields are non-empty. -/
def complete (h : Headers) : Prop :=
  h.From ≠ [] ∧ h.To ≠ [] ∧ h.Sent ≠ []

instance (h : Headers) : Decidable (complete h) := by
  unfold complete; infer_instance

/-- `line.lower().startswith(kw)` for a lowercase keyword `kw`. -/
def startsWithCI (l kw : List Char) : Bool := kw.isPrefixOf (lowerL l)

/-- Value of a `From:` line: `clean_text(line[5:].strip().strip('"'))`. -/
def fromVal (t : List Char) : List Char :=
  clean_text (stripQuotes (pyStrip (t.drop 5)))

/-- Value of a `To:` line: `clean_text(line[3:].strip().strip('"'))`. -/
def toVal (t : List Char) : List Char :=
  clean_text (stripQuotes (pyStrip (t.drop 3)))

/-- Cleaned text after the first colon:
`clean_text(line.split(":", 1)[1].strip().strip('"'))`. -/
def colonVal (t : List Char) : List Char :=
  clean_text (stripQuotes (pyStrip (afterFirstColon t)))

/-- `Sent` value: normalized date, or the raw cleaned string when the
normalizer yields nothing (`utc_date or raw_date`). -/
def sentVal (nd : List Char → Option (List Char)) (t : List Char) : List Char :=
  pyOrElse (nd (colonVal t)) (colonVal t)

/-- Early-termination rule for the Norwegian sender: `From` contains
`"kronprinsessen"` and the line contains both `"den"` and `"skrev"`
(all case-insensitively). -/
def break1 (fr t : List Char) : Bool :=
  containsSub (cl "kronprinsessen") (lowerL fr) &&
    (containsSub (cl "den") (lowerL t) && containsSub (cl "skrev") (lowerL t))

/-- Early-termination rule for the other sender: `From` contains
`"epstein"` and the line contains the 29-asterisk separator or the
disclaimer-opening phrase. -/
def break2 (fr t : List Char) : Bool :=
  containsSub (cl "epstein") (lowerL fr) &&
    (containsSub (cl "*****************************") (lowerL t) ||
      containsSub (cl "the information contained in this communication is") (lowerL t))

/-- One pass of the `for line in lines` loop of `parse_first_email`,
returning the dictionary at loop exit (normal or via `break`). -/
def pfeLoop (nd : List Char → Option (List Char)) (h : Headers) :
    List (List Char) → Headers
  | [] => h
  | line :: rest =>
    let t := pyStrip line
    if t = [] then pfeLoop nd h rest
    else if startsWithCI t (cl "from:") && h.From.isEmpty then
      pfeLoop nd { h with From := fromVal t } rest
    else if startsWithCI t (cl "to:") && h.To.isEmpty then
      pfeLoop nd { h with To := toVal t } rest
    else if (startsWithCI t (cl "sent:") || startsWithCI t (cl "date:")) && h.Sent.isEmpty then
      pfeLoop nd { h with Sent := sentVal nd t } rest
    else if startsWithCI t (cl "subject:") && h.Subject.isEmpty then
      pfeLoop nd { h with Subject := colonVal t } rest
    else if break1 h.From t then h
    else if break2 h.From t then h
    else if !h.From.isEmpty && (!h.To.isEmpty && !h.Sent.isEmpty) then
      pfeLoop nd { h with Content := h.Content ++ (' ' :: '\n' :: clean_text t) } rest
    else pfeLoop nd h rest

/-- `true` when the loop runs through the given lines without hitting
either `break`. -/
def pfeNoBreak (nd : List Char → Option (List Char)) (h : Headers) :
    List (List Char) → Bool
  | [] => true
  | line :: rest =>
    let t := pyStrip line
    if t = [] then pfeNoBreak nd h rest
    else if startsWithCI t (cl "from:") && h.From.isEmpty then
      pfeNoBreak nd { h with From := fromVal t } rest
    else if startsWithCI t (cl "to:") && h.To.isEmpty then
      pfeNoBreak nd { h with To := toVal t } rest
    else if (startsWithCI t (cl "sent:") || startsWithCI t (cl "date:")) && h.Sent.isEmpty then
      pfeNoBreak nd { h with Sent := sentVal nd t } rest
    else if startsWithCI t (cl "subject:") && h.Subject.isEmpty then
      pfeNoBreak nd { h with Subject := colonVal t } rest
    else if break1 h.From t then false
    else if break2 h.From t then false
    else if !h.From.isEmpty && (!h.To.isEmpty && !h.Sent.isEmpty) then
      pfeNoBreak nd { h with Content := h.Content ++ (' ' :: '\n' :: clean_text t) } rest
    else pfeNoBreak nd h rest

/-- `parse_first_email`, parameterized by the date normalizer `nd`
(the composite `normalize_date ∘ dateutil-parse` of the script). -/
def parse_first_email (nd : List Char → Option (List Char)) (text : List Char) :
    Option Headers :=
  let h := pfeLoop nd h0 (pySplitlines text)
  if h.From.isEmpty || (h.To.isEmpty || h.Sent.isEmpty) then none else some h

/-- A date normalizer that always fails (every raw string falls back). -/
def ndNone : List Char → Option (List Char) := fun _ => none

/-- The loop restricted to a state in which From/To/Sent are already
non-empty: only `Subject` and the accumulated content can still change.
Returns the final subject and the content contributed by these lines. -/
def tailScan (fr subj : List Char) : List (List Char) → List Char × List Char
  | [] => (subj, [])
  | line :: rest =>
    let t := pyStrip line
    if t = [] then tailScan fr subj rest
    else if startsWithCI t (cl "subject:") && subj.isEmpty then
      tailScan fr (colonVal t) rest
    else if break1 fr t then (subj, [])
    else if break2 fr t then (subj, [])
    else
      let r := tailScan fr subj rest
      (r.1, (' ' :: '\n' :: clean_text t) ++ r.2)

/-! ## `remove_trailing_text`

The two `re.search` calls are modelled by explicit leftmost-match
searches.  Both patterns are searched case-insensitively; the search is
performed on the lowercased text (equivalent, `\b`/`\s`/`.` being
case-blind) and the cut applied to the original.

`r"Den.*?kl\..*?skrev"` matches at a position iff `"den"` starts there
and `"kl."` and then `"skrev"` follow, with no newline inside either gap
(`.` does not match `'\n'`). -/

/-- Gap-then-`"skrev"` part of the Norwegian reply pattern. -/
def denTail2 : List Char → Bool
  | [] => false
  | c :: t => (cl "skrev").isPrefixOf (c :: t) || (decide (c ≠ '\n') && denTail2 t)

/-- Gap-then-`"kl."`-then-gap-then-`"skrev"` part. -/
def denTail1 : List Char → Bool
  | [] => false
  | c :: t =>
    ((cl "kl.").isPrefixOf (c :: t) && denTail2 ((c :: t).drop 3)) ||
      (decide (c ≠ '\n') && denTail1 t)

/-- A match of `r"Den.*?kl\..*?skrev"` begins at this position. -/
def denMatchB (l : List Char) : Bool := (cl "den").isPrefixOf l && denTail1 (l.drop 3)

/-- `re.search(r"Den.*?kl\..*?skrev", ·, re.IGNORECASE).span()[0]`. -/
def denSearch : List Char → Option Nat
  | [] => none
  | c :: t => if denMatchB (c :: t) then some 0 else (denSearch t).map (· + 1)

/-- `\w` (ASCII fragment: letters, digits, underscore). -/
def wordChar (c : Char) : Bool := c.isAlphanum || c = '_'

/-- `\b` before a known word character, given the preceding character
(`none` at the start of the text). -/
def bchk : Option Char → Bool
  | none => true
  | some p => !wordChar p

/-- The final `\b` of `r"...\bwrote:?\b"` after the `e` (or after an
optional consumed `:`): satisfiable iff the text ends here or the next
character is a non-word character (when the next character is `':'` the
zero-width option already matches before it). -/
def endBdry : List Char → Bool
  | [] => true
  | c :: _ => !wordChar c

/-- `\bwrote:?\b` matches at this position, `prev` being the preceding
character. -/
def wroteHere (prev : Char) (l : List Char) : Bool :=
  !wordChar prev && ((cl "wrote").isPrefixOf l && endBdry (l.drop 5))

/-- Search for `\bwrote:?\b` within the `\s+.*?` region: while `inRun`
the scan is still inside the leading whitespace run (where `'\n'` is
allowed); afterwards characters belong to `.*?` and must not be
newlines.  Staying in the run as long as possible subsumes every
backtracking split of `\s+.*?`. -/
def onSearchTail (prev : Char) (inRun : Bool) : List Char → Bool
  | [] => false
  | c :: t =>
    wroteHere prev (c :: t) ||
      (if inRun && pySpaceB c then onSearchTail c true t
       else if c = '\n' then false
       else onSearchTail c false t)

/-- A match of `r"\bOn\s+.*?\bwrote:?\b"` begins at this position:
boundary, then `on`, then at least one whitespace character opening the
`\s+.*?` region. -/
def onMatchB (prev : Option Char) (l : List Char) : Bool :=
  bchk prev && ((cl "on").isPrefixOf l &&
    (match l.drop 2 with
     | [] => false
     | d :: r => pySpaceB d && onSearchTail d true r))

/-- `re.search(r"\bOn\s+.*?\bwrote:?\b", ·, re.IGNORECASE).span()[0]`. -/
def onSearch (prev : Option Char) : List Char → Option Nat
  | [] => none
  | c :: t => if onMatchB prev (c :: t) then some 0 else (onSearch (some c) t).map (· + 1)

/-- Truncation at the leftmost (case-insensitive) occurrence of a fixed
string, as in `full_email[:full_email.lower().find(pat)]`. -/
def cutFind (pat l : List Char) : List Char :=
  match findSub pat (lowerL l) with
  | some i => l.take i
  | none => l

/-- The disclaimer stage: cut at the disclaimer phrase and, if it was
found, additionally cut the remaining prefix at `"please note"`. -/
def disclaimerCut (l : List Char) : List Char :=
  match findSub (cl "the information contained in this") (lowerL l) with
  | some i =>
    let l2 := l.take i
    match findSub (cl "please note") (lowerL l2) with
    | some j => l2.take j
    | none => l2
  | none => l

/-- Truncation at the Norwegian reply-quote pattern. -/
def denPass (l : List Char) : List Char :=
  match denSearch (lowerL l) with
  | some i => l.take i
  | none => l

/-- Truncation at the English reply-quote pattern. -/
def onPass (l : List Char) : List Char :=
  match onSearch none (lowerL l) with
  | some i => l.take i
  | none => l

/-- `full_email.replace("*", "")`. -/
def starStrip (l : List Char) : List Char := l.filter (fun c => c ≠ '*')

/-- The five truncation passes of `remove_trailing_text`, in source
order. -/
def truncPasses (l : List Char) : List Char :=
  onPass (denPass (cutFind (cl "sendt fra min ") (cutFind (cl "sent from my ") (disclaimerCut l))))

/-- `remove_trailing_text` from the script. -/
def remove_trailing_text (l : List Char) : List Char :=
  starStrip (truncPasses l)

/-! ## The processing loop and output stage (driver)

One source document is its per-page extracted text (`page.extract_text()`
may return `None`, modelled as `Option`), plus provenance.  The module's
global accumulators (`emails`, `total_emails`, `failed`) and the
`sorted_emails` binding are threaded through a fold; crucially,
`sorted_emails` is assigned *inside* the `for pdf_file ...` loop, so it
is carried as an `Option` that stays `none` when the loop body never
runs (Python would then raise `NameError` at the output stage). -/

structure PdfDoc where
  pages : List (Option (List Char))
  path : List Char
  fileName : List Char

structure EmailRec where
  hdr : Headers
  Path : List Char
  FileName : List Char
deriving DecidableEq

/-- `{"pdf": {"successfull": ..., "total": ..., "failed": [...]}}`. -/
structure Stats where
  successfull : Nat
  total : Nat
  failed : List (List Char)
deriving DecidableEq

/-- `"\n".join(page.extract_text() or "" for page in pdf.pages[:2])`. -/
def fullTextOf (doc : PdfDoc) : List Char :=
  List.intercalate ['\n'] ((doc.pages.take 2).map (fun p => p.getD []))

/-- Lexicographic comparison on the `Sent` strings (Python `str` order). -/
def keyLt : List Char → List Char → Bool
  | [], [] => false
  | [], _ :: _ => true
  | _ :: _, [] => false
  | a :: as_, b :: bs => a < b || (a = b && keyLt as_ bs)

/-- Stable descending insertion by `Sent` (the order produced by
`sorted(emails, key=..., reverse=True)`). -/
def insDesc (x : EmailRec) : List EmailRec → List EmailRec
  | [] => [x]
  | y :: t => if keyLt y.hdr.Sent x.hdr.Sent then x :: y :: t else y :: insDesc x t

/-- `sorted(emails, key=lambda email: email["Sent"], reverse=True)`. -/
def sortBySentDesc : List EmailRec → List EmailRec
  | [] => []
  | x :: t => insDesc x (sortBySentDesc t)

/-- The body of the `for pdf_file ...` loop for one document. -/
def processDoc (nd : List Char → Option (List Char)) (doc : PdfDoc) :
    Option EmailRec :=
  match parse_first_email nd (fullTextOf doc) with
  | none => none
  | some h =>
    let h :=
      if h.Content ≠ [] then
        { h with Content :=
            remove_trailing_text h.Content ++
              (if 2 < doc.pages.length then
                cl "\n ** Pages has been removed, see source for all pages **"
              else []) }
      else h
    some { hdr := h, Path := doc.path, FileName := doc.fileName }

/-- State of the accumulators after part of the loop:
(`emails`, `total_emails`, `failed`, `sorted_emails`-binding). -/
structure LoopState where
  emails : List EmailRec
  total : Nat
  failed : List (List Char)
  sortedEmails : Option (List EmailRec)

/-- The whole `for pdf_file ...` loop. -/
def runLoop (nd : List Char → Option (List Char)) (st : LoopState) :
    List PdfDoc → LoopState
  | [] => st
  | doc :: docs =>
    let total := st.total + 1
    let st' :=
      match processDoc nd doc with
      | none => { st with total := total, failed := st.failed ++ [doc.path] }
      | some r => { st with total := total, emails := st.emails ++ [r] }
    runLoop nd { st' with sortedEmails := some (sortBySentDesc st'.emails) } docs

/-- The fixed CSV field order. -/
def headerRow : List (List Char) :=
  [cl "Path", cl "FileName", cl "From", cl "To", cl "Sent", cl "Subject", cl "Content"]

/-- One CSV data row. -/
def toRow (r : EmailRec) : List (List Char) :=
  [r.Path, r.FileName, r.hdr.From, r.hdr.To, r.hdr.Sent, r.hdr.Subject, r.hdr.Content]

/-- The script's outputs: the rows written to the CSV file and the stats
object written to the JSON file (`none` when the run dies first).  When
`sorted_emails` was never bound (zero documents), the CSV writer has
already emitted the header row before the `for email in sorted_emails`
lookup raises `NameError`, and the stats file is never written. -/
def scriptOutputs (nd : List Char → Option (List Char)) (docs : List PdfDoc) :
    List (List (List Char)) × Option Stats :=
  let st := runLoop nd ⟨[], 0, [], none⟩ docs
  match st.sortedEmails with
  | none => ([headerRow], none)
  | some se => (headerRow :: se.map toRow, some ⟨se.length, st.total, st.failed⟩)

/-! ## Ground lemmas: `isPrefixOf` and `findSub` -/

lemma ipo_nil {pat : List Char} (hp : pat ≠ []) : pat.isPrefixOf ([] : List Char) = false := by
  cases pat with
  | nil => exact absurd rfl hp
  | cons p ps => rfl

lemma ipo_of_take {pat : List Char} :
    ∀ {l : List Char} {n : Nat}, pat.isPrefixOf (l.take n) = true → pat.isPrefixOf l = true := by
  induction pat with
  | nil => intro l n _; cases l <;> rfl
  | cons p ps ih =>
    intro l n hp
    cases l with
    | nil => simpa using hp
    | cons c t =>
      cases n with
      | zero => simpa using hp
      | succ m =>
        simp only [List.take_succ_cons, List.isPrefixOf, Bool.and_eq_true] at hp ⊢
        exact ⟨hp.1, ih hp.2⟩

lemma ipo_length {pat : List Char} :
    ∀ {l : List Char}, pat.isPrefixOf l = true → pat.length ≤ l.length := by
  induction pat with
  | nil => intro l _; simp
  | cons p ps ih =>
    intro l hp
    cases l with
    | nil => simpa using hp
    | cons c t =>
      simp only [List.isPrefixOf, Bool.and_eq_true] at hp
      simpa using ih hp.2

lemma ipo_eq_of_length {pat : List Char} :
    ∀ {l : List Char}, pat.isPrefixOf l = true → l.length ≤ pat.length → l = pat := by
  induction pat with
  | nil => intro l _ hl; cases l with
    | nil => rfl
    | cons c t => simp at hl
  | cons p ps ih =>
    intro l hp hl
    cases l with
    | nil => simpa using hp
    | cons c t =>
      simp only [List.isPrefixOf, Bool.and_eq_true, beq_iff_eq] at hp
      simp only [List.length_cons, Nat.succ_le_succ_iff] at hl
      rw [hp.1, ih hp.2 hl]

lemma ipo_take_of {pat : List Char} :
    ∀ {l : List Char} {n : Nat}, pat.isPrefixOf l = true → pat.length ≤ n →
      pat.isPrefixOf (l.take n) = true := by
  induction pat with
  | nil => intro l n _ _; cases l.take n <;> rfl
  | cons p ps ih =>
    intro l n hp hn
    cases l with
    | nil => simpa using hp
    | cons c t =>
      cases n with
      | zero => simp at hn
      | succ m =>
        simp only [List.isPrefixOf, Bool.and_eq_true] at hp
        simp only [List.length_cons, Nat.succ_le_succ_iff] at hn
        simp only [List.take_succ_cons, List.isPrefixOf, Bool.and_eq_true]
        exact ⟨hp.1, ih hp.2 hn⟩

lemma fs_some_drop {pat : List Char} :
    ∀ {l : List Char} {i : Nat}, findSub pat l = some i → pat.isPrefixOf (l.drop i) = true := by
  intro l
  induction l with
  | nil =>
    intro i h
    unfold findSub at h
    cases hp : pat.isPrefixOf ([] : List Char) with
    | true =>
      rw [hp] at h; simp only [if_true] at h
      obtain rfl : (0 : Nat) = i := Option.some.inj h
      rw [List.drop_nil]; exact hp
    | false => rw [hp] at h; simp at h
  | cons c t ih =>
    intro i h
    unfold findSub at h
    cases hp : pat.isPrefixOf (c :: t) with
    | true =>
      rw [hp] at h; simp only [if_true] at h
      obtain rfl : (0 : Nat) = i := Option.some.inj h
      rw [List.drop_zero]; exact hp
    | false =>
      rw [hp] at h
      simp only [Bool.false_eq_true, if_false, Option.map_eq_some'] at h
      obtain ⟨i', hi', rfl⟩ := h
      rw [List.drop_succ_cons]; exact ih hi'

lemma fs_min {pat : List Char} :
    ∀ {l : List Char} {i : Nat}, findSub pat l = some i →
      ∀ j < i, pat.isPrefixOf (l.drop j) = false := by
  intro l
  induction l with
  | nil =>
    intro i h j hj
    unfold findSub at h
    cases hp : pat.isPrefixOf ([] : List Char) with
    | true =>
      rw [hp] at h; simp only [if_true] at h
      obtain rfl : (0 : Nat) = i := Option.some.inj h
      omega
    | false => rw [hp] at h; simp at h
  | cons c t ih =>
    intro i h j hj
    unfold findSub at h
    cases hp : pat.isPrefixOf (c :: t) with
    | true =>
      rw [hp] at h; simp only [if_true] at h
      obtain rfl : (0 : Nat) = i := Option.some.inj h
      omega
    | false =>
      rw [hp] at h
      simp only [Bool.false_eq_true, if_false, Option.map_eq_some'] at h
      obtain ⟨i', hi', rfl⟩ := h
      cases j with
      | zero => rw [List.drop_zero]; exact hp
      | succ j' => rw [List.drop_succ_cons]; exact ih hi' j' (by omega)

lemma fs_none_drop {pat : List Char} :
    ∀ {l : List Char}, findSub pat l = none →
      ∀ j, pat.isPrefixOf (l.drop j) = false := by
  intro l
  induction l with
  | nil =>
    intro h j
    unfold findSub at h
    cases hp : pat.isPrefixOf ([] : List Char) with
    | true => rw [hp] at h; simp at h
    | false => rw [List.drop_nil]; exact hp
  | cons c t ih =>
    intro h j
    unfold findSub at h
    cases hp : pat.isPrefixOf (c :: t) with
    | true => rw [hp] at h; simp at h
    | false =>
      rw [hp] at h
      simp only [Bool.false_eq_true, if_false, Option.map_eq_none'] at h
      cases j with
      | zero => rw [List.drop_zero]; exact hp
      | succ j' => rw [List.drop_succ_cons]; exact ih h j'

lemma fs_intro_none {pat : List Char} :
    ∀ {l : List Char}, (∀ j, pat.isPrefixOf (l.drop j) = false) → findSub pat l = none := by
  intro l
  induction l with
  | nil =>
    intro h
    unfold findSub
    have h0 := h 0
    rw [List.drop_nil] at h0
    rw [h0]; simp
  | cons c t ih =>
    intro h
    unfold findSub
    have h0 := h 0
    rw [List.drop_zero] at h0
    rw [h0]
    simp only [Bool.false_eq_true, if_false]
    rw [ih (fun j => by rw [← List.drop_succ_cons (n := j) (a := c) (l := t)]; exact h (j + 1))]
    rfl

lemma fs_intro_some {pat : List Char} :
    ∀ {l : List Char} {p : Nat}, pat.isPrefixOf (l.drop p) = true →
      (∀ j < p, pat.isPrefixOf (l.drop j) = false) → findSub pat l = some p := by
  intro l
  induction l with
  | nil =>
    intro p hp hmin
    cases p with
    | zero =>
      unfold findSub
      rw [List.drop_nil] at hp
      rw [hp]; simp
    | succ p' =>
      have h0 := hmin 0 (by omega)
      rw [List.drop_nil] at h0
      rw [List.drop_nil] at hp
      rw [h0] at hp
      exact absurd hp (by simp)
  | cons c t ih =>
    intro p hp hmin
    cases p with
    | zero =>
      unfold findSub
      rw [List.drop_zero] at hp
      rw [hp]; simp
    | succ p' =>
      have h0 := hmin 0 (by omega)
      rw [List.drop_zero] at h0
      unfold findSub
      rw [h0]
      simp only [Bool.false_eq_true, if_false]
      rw [List.drop_succ_cons] at hp
      rw [ih hp (fun j hj => by
        rw [← List.drop_succ_cons (n := j) (a := c) (l := t)]
        exact hmin (j + 1) (by omega))]
      rfl

lemma fs_none_take {pat : List Char} {l : List Char} (h : findSub pat l = none) (n : Nat) :
    findSub pat (l.take n) = none := by
  apply fs_intro_none
  intro j
  rw [List.drop_take]
  by_contra hb
  simp only [Bool.not_eq_false] at hb
  have hfull := ipo_of_take hb
  simp [fs_none_drop h j] at hfull

lemma fs_some_take {pat : List Char} {l : List Char} {i : Nat} (hp : pat ≠ [])
    (h : findSub pat l = some i) : findSub pat (l.take i) = none := by
  apply fs_intro_none
  intro j
  rw [List.drop_take]
  by_cases hj : j < i
  · by_contra hb
    simp only [Bool.not_eq_false] at hb
    have hfull := ipo_of_take hb
    simp [fs_min h j hj] at hfull
  · have : i - j = 0 := by omega
    rw [this, List.take_zero]
    exact ipo_nil hp

lemma fs_take_of_fit {pat : List Char} {l : List Char} {p n : Nat}
    (h : findSub pat l = some p) (hfit : p + pat.length ≤ n) :
    findSub pat (l.take n) = some p := by
  apply fs_intro_some
  · rw [List.drop_take]
    exact ipo_take_of (fs_some_drop h) (by omega)
  · intro j hj
    rw [List.drop_take]
    by_contra hb
    simp only [Bool.not_eq_false] at hb
    have hfull := ipo_of_take hb
    simp [fs_min h j hj] at hfull

/-! ## Claim theorems: error signalling and the date normalizer -/

lemma parse_eval (nd : List Char → Option (List Char)) (text : List Char) :
    parse_first_email nd text =
      (if (pfeLoop nd h0 (pySplitlines text)).From.isEmpty ||
          ((pfeLoop nd h0 (pySplitlines text)).To.isEmpty ||
            (pfeLoop nd h0 (pySplitlines text)).Sent.isEmpty)
       then none else some (pfeLoop nd h0 (pySplitlines text))) := rfl

/-- C1: `parse_first_email` yields `none` exactly when `From`, `To` or
`Sent` is still empty when the line scan ends; in particular the empty
text yields `none`, and every returned record has non-empty `From`, `To`
and `Sent`. -/
theorem c1_parse_none_iff_missing_mandatory :
    ∀ (nd : List Char → Option (List Char)) (text : List Char),
      (parse_first_email nd text = none ↔
        ((pfeLoop nd h0 (pySplitlines text)).From = [] ∨
          (pfeLoop nd h0 (pySplitlines text)).To = [] ∨
          (pfeLoop nd h0 (pySplitlines text)).Sent = [])) ∧
      parse_first_email nd [] = none ∧
      (∀ r, parse_first_email nd text = some r →
        r.From ≠ [] ∧ r.To ≠ [] ∧ r.Sent ≠ []) := by
  intro nd text
  refine ⟨?_, rfl, ?_⟩
  · rw [parse_eval]
    cases hc : ((pfeLoop nd h0 (pySplitlines text)).From.isEmpty ||
        ((pfeLoop nd h0 (pySplitlines text)).To.isEmpty ||
          (pfeLoop nd h0 (pySplitlines text)).Sent.isEmpty)) with
    | true =>
      simp only [hc, if_true, true_iff]
      simpa [List.isEmpty_iff] using hc
    | false =>
      simp only [hc, Bool.false_eq_true, if_false]
      simp only [Bool.or_eq_false_iff, List.isEmpty_eq_false] at hc
      constructor
      · intro h; simp at h
      · rintro (h1 | h2 | h3)
        · exact absurd h1 hc.1
        · exact absurd h2 hc.2.1
        · exact absurd h3 hc.2.2
  · intro r hr
    rw [parse_eval] at hr
    cases hc : ((pfeLoop nd h0 (pySplitlines text)).From.isEmpty ||
        ((pfeLoop nd h0 (pySplitlines text)).To.isEmpty ||
          (pfeLoop nd h0 (pySplitlines text)).Sent.isEmpty)) with
    | true => rw [hc] at hr; simp at hr
    | false =>
      rw [hc] at hr
      simp only [Bool.false_eq_true, if_false] at hr
      obtain rfl := Option.some.inj hr
      simp only [Bool.or_eq_false_iff, List.isEmpty_eq_false] at hc
      exact ⟨by simpa using hc.1, by simpa using hc.2.1, by simpa using hc.2.2⟩

/-- Witness for C1 at a concrete text missing its `From` header. -/
theorem c1_witness :
    parse_first_email ndNone (cl "to: b") = none :=
  ((c1_parse_none_iff_missing_mandatory ndNone (cl "to: b")).1).mpr (by decide)

/-- C8: with zero matching documents the model of the script dies at the
`sorted_emails` lookup: the CSV consists of the header row alone, but the
stats object is never produced (the claim expects
`successful=0, total=0, failed=[]`). -/
theorem c8_zero_documents_output :
    ∀ (nd : List Char → Option (List Char)),
      scriptOutputs nd [] = ([headerRow], none) := fun _ => rfl

/-- C7: the modelled `normalize_date` is total over the abstract parse
outcome — `none` exactly on parse failure; on success the result is the
ISO rendering with a `+00:00` offset, taken verbatim when the parse had
no timezone and shifted to the equivalent UTC instant when it had one —
and the caller falls back to the raw cleaned string on failure. -/
theorem c7_normalize_date_total_utc :
    ∀ (p : Option PyDatetime),
      (normalize_date p = none ↔ p = none) ∧
      (∀ dt, p = some dt →
        (dt.tzOffset = none →
          normalize_date p = some (isoRender dt.naive ++ cl "+00:00")) ∧
        (∀ off, dt.tzOffset = some off →
          normalize_date p = some (isoRender (PyDatetime.instant dt) ++ cl "+00:00"))) ∧
      (∀ (nd : List Char → Option (List Char)) (raw : List Char),
        nd raw = none → pyOrElse (nd raw) raw = raw) := by
  intro p
  refine ⟨?_, ?_, ?_⟩
  · cases p with
    | none => simp [normalize_date]
    | some dt => simp [normalize_date]
  · intro dt hp
    subst hp
    have hoz : offsetRender (some 0) = cl "+00:00" := by decide
    constructor
    · intro hz
      simp only [normalize_date, hz, isoformat, hoz]
    · intro off hoff
      simp only [normalize_date, hoff, isoformat, PyDatetime.instant, hoff, hoz,
        Option.getD_some]
  · intro nd raw hnd
    simp [pyOrElse, hnd]

/-- Witness for C7 at the epoch with no timezone and at an aware
datetime one hour east. -/
theorem c7_witness :
    normalize_date (some ⟨0, none⟩) = some (cl "1970-01-01T00:00:00+00:00") ∧
    normalize_date (some ⟨3600, some 3600⟩) = some (cl "1970-01-01T00:00:00+00:00") := by
  constructor
  · have h := ((c7_normalize_date_total_utc (some ⟨0, none⟩)).2.1 ⟨0, none⟩ rfl).1 rfl
    rw [h]
    decide
  · have h := ((c7_normalize_date_total_utc (some ⟨3600, some 3600⟩)).2.1
      ⟨3600, some 3600⟩ rfl).2 3600 rfl
    rw [h]
    decide

/-! ## Claim theorems: header scanning -/

lemma pfe_keep (nd : List Char → Option (List Char)) :
    ∀ (ls : List (List Char)) (h : Headers),
      (h.From ≠ [] → (pfeLoop nd h ls).From = h.From) ∧
      (h.To ≠ [] → (pfeLoop nd h ls).To = h.To) ∧
      (h.Sent ≠ [] → (pfeLoop nd h ls).Sent = h.Sent) ∧
      (h.Subject ≠ [] → (pfeLoop nd h ls).Subject = h.Subject) := by
  intro ls
  induction ls with
  | nil => intro h; exact ⟨fun _ => rfl, fun _ => rfl, fun _ => rfl, fun _ => rfl⟩
  | cons line rest ih =>
    intro h
    simp only [pfeLoop]
    split_ifs with h1 h2 h3 h4 h5 h6 h7 h8
    · exact ih h
    · have h2' := (Bool.and_eq_true _ _).mp h2
      have hFe : h.From = [] := by simpa [List.isEmpty_iff] using h2'.2
      obtain ⟨ihF, ihT, ihS, ihJ⟩ := ih { h with From := fromVal (pyStrip line) }
      exact ⟨fun hF => absurd hFe hF,
             fun hT => by simpa using ihT (by simpa using hT),
             fun hS => by simpa using ihS (by simpa using hS),
             fun hJ => by simpa using ihJ (by simpa using hJ)⟩
    · have h3' := (Bool.and_eq_true _ _).mp h3
      have hTe : h.To = [] := by simpa [List.isEmpty_iff] using h3'.2
      obtain ⟨ihF, ihT, ihS, ihJ⟩ := ih { h with To := toVal (pyStrip line) }
      exact ⟨fun hF => by simpa using ihF (by simpa using hF),
             fun hT => absurd hTe hT,
             fun hS => by simpa using ihS (by simpa using hS),
             fun hJ => by simpa using ihJ (by simpa using hJ)⟩
    · have h4' := (Bool.and_eq_true _ _).mp h4
      have hSe : h.Sent = [] := by simpa [List.isEmpty_iff] using h4'.2
      obtain ⟨ihF, ihT, ihS, ihJ⟩ := ih { h with Sent := sentVal nd (pyStrip line) }
      exact ⟨fun hF => by simpa using ihF (by simpa using hF),
             fun hT => by simpa using ihT (by simpa using hT),
             fun hS => absurd hSe hS,
             fun hJ => by simpa using ihJ (by simpa using hJ)⟩
    · have h5' := (Bool.and_eq_true _ _).mp h5
      have hJe : h.Subject = [] := by simpa [List.isEmpty_iff] using h5'.2
      obtain ⟨ihF, ihT, ihS, ihJ⟩ := ih { h with Subject := colonVal (pyStrip line) }
      exact ⟨fun hF => by simpa using ihF (by simpa using hF),
             fun hT => by simpa using ihT (by simpa using hT),
             fun hS => by simpa using ihS (by simpa using hS),
             fun hJ => absurd hJe hJ⟩
    · exact ⟨fun _ => rfl, fun _ => rfl, fun _ => rfl, fun _ => rfl⟩
    · exact ⟨fun _ => rfl, fun _ => rfl, fun _ => rfl, fun _ => rfl⟩
    · obtain ⟨ihF, ihT, ihS, ihJ⟩ :=
        ih { h with Content := h.Content ++ (' ' :: '\n' :: clean_text (pyStrip line)) }
      exact ⟨fun hF => by simpa using ihF (by simpa using hF),
             fun hT => by simpa using ihT (by simpa using hT),
             fun hS => by simpa using ihS (by simpa using hS),
             fun hJ => by simpa using ihJ (by simpa using hJ)⟩
    · exact ih h

/-- C3 (amended): once a header field holds a non-empty value, no later
line of the scan changes it; a matching line is consumed by setting the
field to its extracted value, which may be empty, in which case the
field counts as unset and a later matching line may still supply it. -/
theorem c3_first_nonempty_occurrence_wins :
    ∀ (nd : List Char → Option (List Char)) (h : Headers) (ls : List (List Char))
      (line : List Char) (rest : List (List Char)),
      ((h.From ≠ [] → (pfeLoop nd h ls).From = h.From) ∧
       (h.To ≠ [] → (pfeLoop nd h ls).To = h.To) ∧
       (h.Sent ≠ [] → (pfeLoop nd h ls).Sent = h.Sent) ∧
       (h.Subject ≠ [] → (pfeLoop nd h ls).Subject = h.Subject)) ∧
      (pyStrip line ≠ [] → startsWithCI (pyStrip line) (cl "from:") = true → h.From = [] →
        pfeLoop nd h (line :: rest) =
          pfeLoop nd { h with From := fromVal (pyStrip line) } rest) := by
  intro nd h ls line rest
  refine ⟨pfe_keep nd ls h, ?_⟩
  intro ht hsw hFe
  simp only [pfeLoop]
  have : (startsWithCI (pyStrip line) (cl "from:") && h.From.isEmpty) = true := by
    simp [hsw, hFe]
  simp [ht, this]

/-- Witness for C3: a state with `From` already set keeps it across a
later `from:` line, and a fresh `from:` line is consumed by setting
`From`. -/
theorem c3_witness :
    (pfeLoop ndNone ⟨cl "a", [], [], [], []⟩ [cl "from: b"]).From = cl "a" ∧
    pfeLoop ndNone h0 [cl "from: b", cl "to: c"] =
      pfeLoop ndNone { h0 with From := fromVal (pyStrip (cl "from: b")) } [cl "to: c"] :=
  ⟨(c3_first_nonempty_occurrence_wins ndNone ⟨cl "a", [], [], [], []⟩ [cl "from: b"]
      (cl "") []).1.1 (by decide),
   (c3_first_nonempty_occurrence_wins ndNone h0 [] (cl "from: b") [cl "to: c"]).2
      (by decide) (by decide) (by decide)⟩

/-- C3 as stated fails: the first line matching `from:` carries an empty
value, so the final `From` comes from the second matching line. -/
theorem c3_counterexample :
    (parse_first_email ndNone (cl "from:\nfrom: b\nto: c\nsent: d")).map (fun r => r.From) =
      some (cl "b") ∧
    startsWithCI (pyStrip (cl "from:")) (cl "from:") = true ∧
    fromVal (pyStrip (cl "from:")) = [] := by decide

/-- C4 (amended): on a non-blank line that is not consumed by a header
match, a firing termination rule (evaluated against the `From` value
held at that moment) stops the scan with the state unchanged, so neither
that line nor any later line contributes to `Content`. -/
theorem c4_termination_rules :
    ∀ (nd : List Char → Option (List Char)) (h : Headers) (line : List Char)
      (rest : List (List Char)),
      pyStrip line ≠ [] →
      (startsWithCI (pyStrip line) (cl "from:") && h.From.isEmpty) = false →
      (startsWithCI (pyStrip line) (cl "to:") && h.To.isEmpty) = false →
      ((startsWithCI (pyStrip line) (cl "sent:") ||
          startsWithCI (pyStrip line) (cl "date:")) && h.Sent.isEmpty) = false →
      (startsWithCI (pyStrip line) (cl "subject:") && h.Subject.isEmpty) = false →
      (break1 h.From (pyStrip line) = true ∨ break2 h.From (pyStrip line) = true) →
      pfeLoop nd h (line :: rest) = h := by
  intro nd h line rest h1 h2 h3 h4 h5 h6
  simp only [pfeLoop]
  by_cases hb1 : break1 h.From (pyStrip line) = true
  · simp [h1, h2, h3, h4, h5, hb1]
  · rcases h6 with hb | hb
    · exact absurd hb hb1
    · simp [h1, h2, h3, h4, h5, hb1, hb]

set_option maxRecDepth 8192 in
/-- Witness for C4: the disclaimer rule stops the scan for an
`epstein` sender. -/
theorem c4_witness :
    pfeLoop ndNone ⟨cl "epstein", cl "b", cl "c", [], cl "x"⟩
      [cl "the information contained in this communication is private", cl "later"] =
      ⟨cl "epstein", cl "b", cl "c", [], cl "x"⟩ :=
  c4_termination_rules ndNone ⟨cl "epstein", cl "b", cl "c", [], cl "x"⟩
    (cl "the information contained in this communication is private") [cl "later"]
    (by decide) (by decide) (by decide) (by decide) (by decide) (Or.inr (by decide))

/-- C4 as stated fails: the rules are not evaluated on every line.  Here
`From` contains the Norwegian marker and the `to:` line contains both
reply-opener substrings, yet it is consumed as a header line, the scan
continues, and a later line still lands in `Content`. -/
theorem c4_counterexample :
    (parse_first_email ndNone
        (cl "From: kronprinsessen\nto: den skrev\nsent: x\nhello world")).map
        (fun r => (r.From, r.To, r.Content)) =
      some (cl "kronprinsessen", cl "den skrev", cl " \nhello world") ∧
    containsSub (cl "den") (lowerL (pyStrip (cl "to: den skrev"))) = true ∧
    containsSub (cl "skrev") (lowerL (pyStrip (cl "to: den skrev"))) = true ∧
    containsSub (cl "kronprinsessen") (lowerL (cl "kronprinsessen")) = true := by decide

lemma pfe_complete_keep (nd : List Char → Option (List Char)) (ls : List (List Char))
    (h : Headers) (hc : complete h) : complete (pfeLoop nd h ls) := by
  obtain ⟨hF, hT, hS⟩ := hc
  obtain ⟨kF, kT, kS, _⟩ := pfe_keep nd ls h
  exact ⟨by rw [kF hF]; exact hF, by rw [kT hT]; exact hT, by rw [kS hS]; exact hS⟩

lemma pfe_content_stable (nd : List Char → Option (List Char)) :
    ∀ (ls : List (List Char)) (h : Headers),
      ¬ complete (pfeLoop nd h ls) → (pfeLoop nd h ls).Content = h.Content := by
  intro ls
  induction ls with
  | nil => intro h _; rfl
  | cons line rest ih =>
    intro h hnc
    simp only [pfeLoop] at hnc ⊢
    split_ifs at hnc ⊢ with h1 h2 h3 h4 h5 h6 h7 h8
    · exact ih h hnc
    · simpa using ih { h with From := fromVal (pyStrip line) } hnc
    · simpa using ih { h with To := toVal (pyStrip line) } hnc
    · simpa using ih { h with Sent := sentVal nd (pyStrip line) } hnc
    · simpa using ih { h with Subject := colonVal (pyStrip line) } hnc
    · rfl
    · rfl
    · exfalso
      apply hnc
      apply pfe_complete_keep
      have h8' := (Bool.and_eq_true _ _).mp h8
      have h8'' := (Bool.and_eq_true _ _).mp h8'.2
      refine ⟨?_, ?_, ?_⟩
      · simpa [List.isEmpty_eq_false] using h8'.1
      · simpa [List.isEmpty_eq_false] using h8''.1
      · simpa [List.isEmpty_eq_false] using h8''.2
    · exact ih h hnc

lemma pfe_complete_run (nd : List Char → Option (List Char)) :
    ∀ (ls : List (List Char)) (h : Headers), complete h →
      pfeLoop nd h ls = { h with
        Subject := (tailScan h.From h.Subject ls).1,
        Content := h.Content ++ (tailScan h.From h.Subject ls).2 } := by
  intro ls
  induction ls with
  | nil => intro h _; simp [pfeLoop, tailScan]
  | cons line rest ih =>
    intro h hc
    obtain ⟨hF, hT, hS⟩ := hc
    have hFb : h.From.isEmpty = false := by simpa [List.isEmpty_eq_false] using hF
    have hTb : h.To.isEmpty = false := by simpa [List.isEmpty_eq_false] using hT
    have hSb : h.Sent.isEmpty = false := by simpa [List.isEmpty_eq_false] using hS
    simp only [pfeLoop, tailScan, hFb, hTb, hSb, Bool.and_false, Bool.not_false,
      Bool.and_true, Bool.true_and, Bool.false_eq_true, if_false]
    by_cases h1 : pyStrip line = []
    · simp only [h1, if_true]
      exact ih h ⟨hF, hT, hS⟩
    · simp only [h1, if_false]
      by_cases h5 : (startsWithCI (pyStrip line) (cl "subject:") && h.Subject.isEmpty) = true
      · simp only [h5, if_true]
        simpa using ih { h with Subject := colonVal (pyStrip line) } ⟨hF, hT, hS⟩
      · simp only [eq_false_of_ne_true h5, Bool.false_eq_true, if_false]
        by_cases h6 : break1 h.From (pyStrip line) = true
        · simp [h6, List.append_nil]
        · simp only [eq_false_of_ne_true h6, Bool.false_eq_true, if_false]
          by_cases h7 : break2 h.From (pyStrip line) = true
          · simp [h7, List.append_nil]
          · simp only [eq_false_of_ne_true h7, Bool.false_eq_true, if_false, if_true]
            rw [ih { h with Content := h.Content ++ (' ' :: '\n' :: clean_text (pyStrip line)) }
              ⟨hF, hT, hS⟩]
            simp [List.append_assoc]

lemma pfe_head (nd : List Char → Option (List Char)) (h : Headers) (line : List Char) :
    (∃ h', ∀ rs, pfeLoop nd h (line :: rs) = pfeLoop nd h' rs ∧
        pfeNoBreak nd h (line :: rs) = pfeNoBreak nd h' rs) ∨
    (∀ rs, pfeLoop nd h (line :: rs) = h ∧ pfeNoBreak nd h (line :: rs) = false) := by
  by_cases h1 : pyStrip line = []
  · exact Or.inl ⟨h, fun rs => by constructor <;> simp [pfeLoop, pfeNoBreak, h1]⟩
  by_cases h2 : (startsWithCI (pyStrip line) (cl "from:") && h.From.isEmpty) = true
  · exact Or.inl ⟨{ h with From := fromVal (pyStrip line) },
      fun rs => by constructor <;> simp [pfeLoop, pfeNoBreak, h1, h2]⟩
  by_cases h3 : (startsWithCI (pyStrip line) (cl "to:") && h.To.isEmpty) = true
  · exact Or.inl ⟨{ h with To := toVal (pyStrip line) },
      fun rs => by constructor <;> simp [pfeLoop, pfeNoBreak, h1, h2, h3]⟩
  by_cases h4 : ((startsWithCI (pyStrip line) (cl "sent:") ||
      startsWithCI (pyStrip line) (cl "date:")) && h.Sent.isEmpty) = true
  · exact Or.inl ⟨{ h with Sent := sentVal nd (pyStrip line) },
      fun rs => by constructor <;> simp [pfeLoop, pfeNoBreak, h1, h2, h3, h4]⟩
  by_cases h5 : (startsWithCI (pyStrip line) (cl "subject:") && h.Subject.isEmpty) = true
  · exact Or.inl ⟨{ h with Subject := colonVal (pyStrip line) },
      fun rs => by constructor <;> simp [pfeLoop, pfeNoBreak, h1, h2, h3, h4, h5]⟩
  by_cases h6 : break1 h.From (pyStrip line) = true
  · exact Or.inr fun rs => by constructor <;> simp [pfeLoop, pfeNoBreak, h1, h2, h3, h4, h5, h6]
  by_cases h7 : break2 h.From (pyStrip line) = true
  · exact Or.inr fun rs => by
      constructor <;> simp [pfeLoop, pfeNoBreak, h1, h2, h3, h4, h5, h6, h7]
  by_cases h8 : (!h.From.isEmpty && (!h.To.isEmpty && !h.Sent.isEmpty)) = true
  · exact Or.inl ⟨{ h with Content := h.Content ++ (' ' :: '\n' :: clean_text (pyStrip line)) },
      fun rs => by constructor <;> simp [pfeLoop, pfeNoBreak, h1, h2, h3, h4, h5, h6, h7, h8]⟩
  · exact Or.inl ⟨h,
      fun rs => by constructor <;> simp [pfeLoop, pfeNoBreak, h1, h2, h3, h4, h5, h6, h7, h8]⟩

lemma pfeNoBreak_split (nd : List Char → Option (List Char)) :
    ∀ (xs ys : List (List Char)) (h : Headers), pfeNoBreak nd h (xs ++ ys) = true →
      pfeNoBreak nd h xs = true ∧ pfeNoBreak nd (pfeLoop nd h xs) ys = true := by
  intro xs
  induction xs with
  | nil => intro ys h hnb; exact ⟨rfl, hnb⟩
  | cons line rest ih =>
    intro ys h hnb
    rw [List.cons_append] at hnb
    rcases pfe_head nd h line with ⟨h', hstep⟩ | hstop
    · rw [(hstep (rest ++ ys)).2] at hnb
      obtain ⟨ha, hb⟩ := ih ys h' hnb
      refine ⟨?_, ?_⟩
      · rw [(hstep rest).2]; exact ha
      · rw [(hstep rest).1]; exact hb
    · rw [(hstop (rest ++ ys)).2] at hnb
      exact absurd hnb (by simp)

lemma pfe_append (nd : List Char → Option (List Char)) :
    ∀ (xs ys : List (List Char)) (h : Headers), pfeNoBreak nd h xs = true →
      pfeLoop nd h (xs ++ ys) = pfeLoop nd (pfeLoop nd h xs) ys := by
  intro xs
  induction xs with
  | nil => intro ys h _; rfl
  | cons line rest ih =>
    intro ys h hnb
    rcases pfe_head nd h line with ⟨h', hstep⟩ | hstop
    · rw [List.cons_append, (hstep (rest ++ ys)).1, (hstep rest).1]
      apply ih
      rw [(hstep rest).2] at hnb
      exact hnb
    · rw [(hstop rest).2] at hnb
      exact absurd hnb (by simp)

lemma pfe_step_content (nd : List Char → Option (List Char)) (h : Headers) (line : List Char)
    (hnc : ¬ complete h) : (pfeLoop nd h [line]).Content = h.Content := by
  by_cases h1 : pyStrip line = []
  · simp [pfeLoop, h1]
  by_cases h2 : (startsWithCI (pyStrip line) (cl "from:") && h.From.isEmpty) = true
  · simp [pfeLoop, h1, h2]
  by_cases h3 : (startsWithCI (pyStrip line) (cl "to:") && h.To.isEmpty) = true
  · simp [pfeLoop, h1, h2, h3]
  by_cases h4 : ((startsWithCI (pyStrip line) (cl "sent:") ||
      startsWithCI (pyStrip line) (cl "date:")) && h.Sent.isEmpty) = true
  · simp [pfeLoop, h1, h2, h3, h4]
  by_cases h5 : (startsWithCI (pyStrip line) (cl "subject:") && h.Subject.isEmpty) = true
  · simp [pfeLoop, h1, h2, h3, h4, h5]
  by_cases h6 : break1 h.From (pyStrip line) = true
  · simp [pfeLoop, h1, h2, h3, h4, h5, h6]
  by_cases h7 : break2 h.From (pyStrip line) = true
  · simp [pfeLoop, h1, h2, h3, h4, h5, h6, h7]
  by_cases h8 : (!h.From.isEmpty && (!h.To.isEmpty && !h.Sent.isEmpty)) = true
  · exfalso
    apply hnc
    have h8' := (Bool.and_eq_true _ _).mp h8
    have h8'' := (Bool.and_eq_true _ _).mp h8'.2
    refine ⟨?_, ?_, ?_⟩
    · simpa [List.isEmpty_eq_false] using h8'.1
    · simpa [List.isEmpty_eq_false] using h8''.1
    · simpa [List.isEmpty_eq_false] using h8''.2
  · simp [pfeLoop, h1, h2, h3, h4, h5, h6, h7, h8]

/-- C2: if the scan reaches a state where `From`, `To` and `Sent` are all
filled — `lst` being the line that filled the last of them — and no
early-termination rule fired up to that point, then extraction succeeds
and `Content` is assembled exclusively from the lines strictly after
`lst` (via `tailScan`, which consumes only `post`). -/
theorem c2_content_after_headers :
    ∀ (nd : List Char → Option (List Char)) (text : List Char)
      (pre : List (List Char)) (lst : List Char) (post : List (List Char)),
      pySplitlines text = pre ++ lst :: post →
      pfeNoBreak nd h0 (pre ++ [lst]) = true →
      ¬ complete (pfeLoop nd h0 pre) →
      complete (pfeLoop nd h0 (pre ++ [lst])) →
      ∃ r, parse_first_email nd text = some r ∧
        r.Content = (tailScan (pfeLoop nd h0 (pre ++ [lst])).From
          (pfeLoop nd h0 (pre ++ [lst])).Subject post).2 := by
  intro nd text pre lst post hsplit hnb hnc hc
  obtain ⟨hnbPre, hnbLst⟩ := pfeNoBreak_split nd pre [lst] h0 hnb
  have hpre : (pfeLoop nd h0 pre).Content = h0.Content := pfe_content_stable nd pre h0 hnc
  have hsteps : pfeLoop nd h0 (pre ++ [lst]) = pfeLoop nd (pfeLoop nd h0 pre) [lst] :=
    pfe_append nd pre [lst] h0 hnbPre
  have hcont1 : (pfeLoop nd h0 (pre ++ [lst])).Content = [] := by
    rw [hsteps, pfe_step_content nd (pfeLoop nd h0 pre) lst hnc, hpre]
    rfl
  have hassoc : pre ++ lst :: post = (pre ++ [lst]) ++ post := by simp
  have hfull : pfeLoop nd h0 (pySplitlines text) =
      pfeLoop nd (pfeLoop nd h0 (pre ++ [lst])) post := by
    rw [hsplit, hassoc]
    exact pfe_append nd (pre ++ [lst]) post h0 hnb
  have hrun := pfe_complete_run nd post (pfeLoop nd h0 (pre ++ [lst])) hc
  have hfinal : pfeLoop nd h0 (pySplitlines text) =
      { pfeLoop nd h0 (pre ++ [lst]) with
        Subject := (tailScan (pfeLoop nd h0 (pre ++ [lst])).From
          (pfeLoop nd h0 (pre ++ [lst])).Subject post).1,
        Content := (tailScan (pfeLoop nd h0 (pre ++ [lst])).From
          (pfeLoop nd h0 (pre ++ [lst])).Subject post).2 } := by
    rw [hfull, hrun, hcont1]
    simp
  obtain ⟨hF, hT, hS⟩ := hc
  have hFb : (pfeLoop nd h0 (pre ++ [lst])).From.isEmpty = false := by
    simpa [List.isEmpty_eq_false] using hF
  have hTb : (pfeLoop nd h0 (pre ++ [lst])).To.isEmpty = false := by
    simpa [List.isEmpty_eq_false] using hT
  have hSb : (pfeLoop nd h0 (pre ++ [lst])).Sent.isEmpty = false := by
    simpa [List.isEmpty_eq_false] using hS
  refine ⟨{ pfeLoop nd h0 (pre ++ [lst]) with
      Subject := (tailScan (pfeLoop nd h0 (pre ++ [lst])).From
        (pfeLoop nd h0 (pre ++ [lst])).Subject post).1,
      Content := (tailScan (pfeLoop nd h0 (pre ++ [lst])).From
        (pfeLoop nd h0 (pre ++ [lst])).Subject post).2 }, ?_, rfl⟩
  rw [parse_eval, hfinal]
  simp [hFb, hTb, hSb]

set_option maxRecDepth 8192 in
/-- Witness for C2: the headers complete at the `sent:` line and the
body is exactly the `tailScan` of the remaining lines. -/
theorem c2_witness :
    ∃ r, parse_first_email ndNone (cl "from: a\nto: b\nsent: c\nhello") = some r ∧
      r.Content = (tailScan (pfeLoop ndNone h0 ([cl "from: a", cl "to: b"] ++ [cl "sent: c"])).From
        (pfeLoop ndNone h0 ([cl "from: a", cl "to: b"] ++ [cl "sent: c"])).Subject
        [cl "hello"]).2 :=
  c2_content_after_headers ndNone (cl "from: a\nto: b\nsent: c\nhello")
    [cl "from: a", cl "to: b"] (cl "sent: c") [cl "hello"]
    (by decide) (by decide) (by decide) (by decide)

/-! ## Claim theorems: body trimming -/

lemma cutFind_take (pat l : List Char) : ∃ n, cutFind pat l = l.take n := by
  unfold cutFind
  cases h : findSub pat (lowerL l) with
  | some i => exact ⟨i, rfl⟩
  | none => exact ⟨l.length, (List.take_length l).symm⟩

lemma disclaimerCut_take (l : List Char) : ∃ n, disclaimerCut l = l.take n := by
  unfold disclaimerCut
  cases h : findSub (cl "the information contained in this") (lowerL l) with
  | some i =>
    cases h2 : findSub (cl "please note") (lowerL (l.take i)) with
    | some j =>
      refine ⟨min j i, ?_⟩
      dsimp only
      rw [h2]
      show List.take j (List.take i l) = List.take (min j i) l
      rw [List.take_take]
    | none =>
      refine ⟨i, ?_⟩
      dsimp only
      rw [h2]
  | none => exact ⟨l.length, (List.take_length l).symm⟩

lemma denPass_take (l : List Char) : ∃ n, denPass l = l.take n := by
  unfold denPass
  cases h : denSearch (lowerL l) with
  | some i => exact ⟨i, rfl⟩
  | none => exact ⟨l.length, (List.take_length l).symm⟩

lemma onPass_take (l : List Char) : ∃ n, onPass l = l.take n := by
  unfold onPass
  cases h : onSearch none (lowerL l) with
  | some i => exact ⟨i, rfl⟩
  | none => exact ⟨l.length, (List.take_length l).symm⟩

lemma later_take (l : List Char) :
    ∃ n, onPass (denPass (cutFind (cl "sendt fra min ") (cutFind (cl "sent from my ") l))) =
      l.take n := by
  obtain ⟨a, ha⟩ := cutFind_take (cl "sent from my ") l
  obtain ⟨b, hb⟩ := cutFind_take (cl "sendt fra min ") (l.take a)
  obtain ⟨c, hc⟩ := denPass_take ((l.take a).take b)
  obtain ⟨d, hd⟩ := onPass_take (((l.take a).take b).take c)
  refine ⟨min (min (min d c) b) a, ?_⟩
  rw [ha, hb, hc, hd, List.take_take, List.take_take, List.take_take]

lemma truncPasses_take (l : List Char) : ∃ n, truncPasses l = l.take n := by
  obtain ⟨a, ha⟩ := disclaimerCut_take l
  obtain ⟨b, hb⟩ := later_take (l.take a)
  exact ⟨min b a, by rw [truncPasses, ha, hb, List.take_take]⟩

/-- C10: the trimmed body is a prefix of the input with all asterisks
deleted; in particular it is never longer than the input and contains no
asterisk. -/
theorem c10_prefix_star_stripped :
    ∀ body : List Char, ∃ q,
      remove_trailing_text body = (body.take q).filter (fun c => c ≠ '*') ∧
      (remove_trailing_text body).length ≤ body.length ∧
      ∀ c ∈ remove_trailing_text body, c ≠ '*' := by
  intro body
  obtain ⟨q, hq⟩ := truncPasses_take body
  have hr : remove_trailing_text body = starStrip (body.take q) := by
    rw [remove_trailing_text, hq]
  refine ⟨q, hr, ?_, ?_⟩
  · rw [hr]
    have h1 : (starStrip (body.take q)).length ≤ (body.take q).length :=
      List.length_filter_le _ _
    have h2 : (body.take q).length ≤ body.length := by
      rw [List.length_take]; omega
    omega
  · intro c hcmem
    rw [hr] at hcmem
    have := (List.mem_filter.mp hcmem).2
    simpa using this

lemma ipo_decomp {pat : List Char} :
    ∀ {l : List Char}, pat.isPrefixOf l = true → ∃ r, l = pat ++ r := by
  induction pat with
  | nil => intro l _; exact ⟨l, rfl⟩
  | cons p ps ih =>
    intro l hp
    cases l with
    | nil => simpa using hp
    | cons c t =>
      simp only [List.isPrefixOf, Bool.and_eq_true, beq_iff_eq] at hp
      obtain ⟨r, hr⟩ := ih hp.2
      exact ⟨r, by simp [hr, hp.1]⟩

/-- A `"please note"` occurrence strictly before the disclaimer phrase
cannot straddle its start: the two literals force a character clash in
every overlap of one to ten characters. -/
lemma pn_no_straddle {L : List Char} {p d : Nat}
    (hpn : (cl "please note").isPrefixOf (L.drop p) = true)
    (hdisc : (cl "the information contained in this").isPrefixOf (L.drop d) = true)
    (hlt : p < d) : p + 11 ≤ d := by
  by_contra hno
  push_neg at hno
  have hlen11 : (cl "please note").length = 11 := by decide
  obtain ⟨r, hr⟩ := ipo_decomp hpn
  obtain ⟨r2, hr2⟩ := ipo_decomp hdisc
  have hk1 : 1 ≤ d - p := by omega
  have hk2 : d - p ≤ 10 := by omega
  have hdd : ((cl "please note").drop (d - p)) ++ r =
      (cl "the information contained in this") ++ r2 := by
    have h1 : L.drop d = (L.drop p).drop (d - p) := by
      rw [List.drop_drop]
      congr 1
      omega
    have h2 : (L.drop p).drop (d - p) = ((cl "please note").drop (d - p)) ++ r := by
      rw [hr]
      exact List.drop_append_of_le_length (by omega)
    rw [← h2, ← h1, hr2]
  have hlend : ((cl "please note").drop (d - p)).length = 11 - (d - p) := by
    rw [List.length_drop, hlen11]
  have heq : (cl "please note").drop (d - p) =
      (cl "the information contained in this").take (11 - (d - p)) := by
    have h33 : 11 - (d - p) ≤ (cl "the information contained in this").length := by
      have h33l : (cl "the information contained in this").length = 33 := by decide
      omega
    have ht := congrArg (List.take (11 - (d - p))) hdd
    rw [List.take_append_of_le_length (by omega),
      List.take_append_of_le_length h33, List.take_of_length_le (by omega)] at ht
    exact ht
  generalize hgen : d - p = k at heq hk1 hk2
  interval_cases k <;> exact absurd heq (by decide)

/-- C6 (amended): with the first `"please note"` occurrence before the
first disclaimer-phrase occurrence, the disclaimer stage cuts the body
exactly at the `"please note"` marker; the returned body is that
truncation run through the remaining passes, hence a star-stripped
prefix of it — the marker and everything after it are excluded, but
later passes may cut further. -/
theorem c6_disclaimer_please_note :
    ∀ (body : List Char) (d p : Nat),
      findSub (cl "the information contained in this") (lowerL body) = some d →
      findSub (cl "please note") (lowerL body) = some p →
      p < d →
      remove_trailing_text body =
        starStrip (onPass (denPass (cutFind (cl "sendt fra min ")
          (cutFind (cl "sent from my ") (body.take p))))) ∧
      ∃ q ≤ p, remove_trailing_text body = starStrip (body.take q) := by
  intro body d p hd hp hlt
  have hfit : p + 11 ≤ d := pn_no_straddle (fs_some_drop hp) (fs_some_drop hd) hlt
  have hdc : disclaimerCut body = body.take p := by
    unfold disclaimerCut
    rw [hd]
    dsimp only
    have hmap : lowerL (List.take d body) = (lowerL body).take d := List.map_take lowCh body d
    have hfit11 : p + (cl "please note").length ≤ d := by
      have h11 : (cl "please note").length = 11 := by decide
      omega
    have hinner : findSub (cl "please note") (lowerL (body.take d)) = some p := by
      rw [hmap]
      exact fs_take_of_fit hp hfit11
    rw [hinner]
    show List.take p (List.take d body) = List.take p body
    rw [List.take_take]
    congr 1
    omega
  constructor
  · rw [remove_trailing_text, truncPasses, hdc]
  · obtain ⟨n, hn⟩ := later_take (body.take p)
    refine ⟨min n p, by omega, ?_⟩
    rw [remove_trailing_text, truncPasses, hdc, hn, List.take_take]

set_option maxRecDepth 32768 in
/-- Witness for C6 at a concrete body with `"please note"` at index 3
and the disclaimer phrase at index 18. -/
theorem c6_witness :
    remove_trailing_text (cl "hi please note xx the information contained in this yy") =
      starStrip (onPass (denPass (cutFind (cl "sendt fra min ")
        (cutFind (cl "sent from my ")
          ((cl "hi please note xx the information contained in this yy").take 3))))) ∧
    ∃ q ≤ 3, remove_trailing_text (cl "hi please note xx the information contained in this yy") =
      starStrip ((cl "hi please note xx the information contained in this yy").take q) :=
  c6_disclaimer_please_note (cl "hi please note xx the information contained in this yy")
    18 3 (by decide) (by decide) (by decide)

set_option maxRecDepth 32768 in
/-- C6 as stated fails: the disclaimer stage does cut at
`"please note"`, but a later pass (here the mobile-signature pass) moves
the final cut earlier, so the returned body is not the truncation at the
`"please note"` marker. -/
theorem c6_counterexample :
    findSub (cl "the information contained in this")
      (lowerL (cl "sent from my iphone please note blah the information contained in this communication")) =
      some 37 ∧
    findSub (cl "please note")
      (lowerL (cl "sent from my iphone please note blah the information contained in this communication")) =
      some 20 ∧
    remove_trailing_text
      (cl "sent from my iphone please note blah the information contained in this communication") =
      [] ∧
    (cl "sent from my iphone please note blah the information contained in this communication").take 20 ≠
      [] := by decide

/-! ## Claim theorems: `clean_text` whitespace discipline -/

/-- No two adjacent characters are both whitespace. -/
def noRun (a b : Char) : Prop := ¬(pySpaceB a = true ∧ pySpaceB b = true)

lemma collapseGo_space_eq : ∀ (l : List Char) (b : Bool) (c : Char),
    c ∈ collapseGo b l → pySpaceB c = true → c = ' ' := by
  intro l
  induction l with
  | nil => intro b c hc; simp [collapseGo] at hc
  | cons d t ih =>
    intro b c hc hsp
    by_cases hd : pySpaceB d = true
    · cases b with
      | true =>
        simp only [collapseGo, hd, if_true] at hc
        exact ih true c hc hsp
      | false =>
        simp only [collapseGo, hd, if_true, Bool.false_eq_true, if_false] at hc
        rcases List.mem_cons.mp hc with h | h
        · exact h
        · exact ih true c h hsp
    · simp only [collapseGo, hd, Bool.false_eq_true, if_false] at hc
      rcases List.mem_cons.mp hc with h | h
      · rw [h] at hsp; exact absurd hsp hd
      · exact ih false c h hsp

lemma collapseGo_run_head : ∀ (l : List Char) (c : Char),
    (collapseGo true l).head? = some c → pySpaceB c = false := by
  intro l
  induction l with
  | nil => intro c hc; simp [collapseGo] at hc
  | cons d t ih =>
    intro c hc
    by_cases hd : pySpaceB d = true
    · simp only [collapseGo, hd, if_true] at hc
      exact ih c hc
    · simp only [collapseGo, hd, Bool.false_eq_true, if_false, List.head?_cons] at hc
      obtain rfl := Option.some.inj hc
      simpa using hd

lemma collapseGo_chain : ∀ (l : List Char) (b : Bool),
    List.Chain' noRun (collapseGo b l) := by
  intro l
  induction l with
  | nil => intro b; simp [collapseGo]
  | cons d t ih =>
    intro b
    by_cases hd : pySpaceB d = true
    · cases b with
      | true => simpa [collapseGo, hd] using ih true
      | false =>
        simp only [collapseGo, hd, if_true, Bool.false_eq_true, if_false]
        rw [List.chain'_cons']
        refine ⟨?_, ih true⟩
        intro y hy
        intro hcon
        rw [collapseGo_run_head t y hy] at hcon
        exact absurd hcon.2 (by simp)
    · simp only [collapseGo, hd, Bool.false_eq_true, if_false]
      rw [List.chain'_cons']
      refine ⟨?_, ih false⟩
      intro y hy hcon
      exact absurd hcon.1 hd

lemma crlfToLf_id : ∀ (l : List Char), (∀ c ∈ l, c ≠ '\r') → crlfToLf l = l := by
  intro l
  induction l with
  | nil => intro _; rfl
  | cons c t ih =>
    intro h
    have hc : ¬ c = '\r' := h c (List.mem_cons_self c t)
    unfold crlfToLf
    rw [if_neg hc, ih (fun x hx => h x (List.mem_cons_of_mem c hx))]

lemma stripEnd_take (p : Char → Bool) : ∀ (l : List Char), ∃ n, stripEnd p l = l.take n := by
  intro l
  induction l with
  | nil => exact ⟨0, rfl⟩
  | cons c t ih =>
    obtain ⟨n, hn⟩ := ih
    by_cases hb : (stripEnd p t = [] && p c) = true
    · exact ⟨0, by simp only [stripEnd, hb, if_true]; rfl⟩
    · exact ⟨n + 1, by simp only [stripEnd, hb, if_false]; rw [hn]; rfl⟩

lemma stripEnd_last (p : Char → Bool) : ∀ (l : List Char) (c : Char),
    (stripEnd p l).getLast? = some c → p c = false := by
  intro l
  induction l with
  | nil => intro c hc; exact absurd hc (by simp [stripEnd])
  | cons d t ih =>
    intro c hc
    have hstep : stripEnd p (d :: t) =
        if stripEnd p t = [] && p d then [] else d :: stripEnd p t := rfl
    rw [hstep] at hc
    by_cases hb : (decide (stripEnd p t = []) && p d) = true
    · rw [if_pos hb] at hc
      simp at hc
    · rw [if_neg hb] at hc
      cases hr : stripEnd p t with
      | nil =>
        rw [hr] at hc
        simp only [List.getLast?_singleton] at hc
        obtain rfl := Option.some.inj hc
        have hb' : (decide (stripEnd p t = []) && p d) = false := eq_false_of_ne_true hb
        rcases Bool.and_eq_false_iff.mp hb' with h | h
        · rw [hr] at h; simp at h
        · exact h
      | cons x xs =>
        rw [hr, List.getLast?_cons_cons, ← hr] at hc
        exact ih c hc

lemma stripEnd_head (p : Char → Bool) : ∀ (l : List Char) (c : Char),
    (stripEnd p l).head? = some c → l.head? = some c := by
  intro l
  cases l with
  | nil => intro c hc; simp [stripEnd] at hc
  | cons d t =>
    intro c hc
    by_cases hb : (stripEnd p t = [] && p d) = true
    · simp only [stripEnd, hb, if_true] at hc
      simp at hc
    · simp only [stripEnd, hb, if_false, List.head?_cons] at hc
      simpa using hc

lemma dropWhile_head (p : Char → Bool) : ∀ (l : List Char) (c : Char),
    (l.dropWhile p).head? = some c → p c = false := by
  intro l
  induction l with
  | nil => intro c hc; simp at hc
  | cons d t ih =>
    intro c hc
    by_cases hd : p d = true
    · rw [List.dropWhile_cons_of_pos hd] at hc
      exact ih c hc
    · rw [List.dropWhile_cons_of_neg hd] at hc
      simp only [List.head?_cons] at hc
      obtain rfl := Option.some.inj hc
      simpa using hd

lemma chain_dropWhile {R : Char → Char → Prop} (p : Char → Bool) :
    ∀ (l : List Char), List.Chain' R l → List.Chain' R (l.dropWhile p) := by
  intro l
  induction l with
  | nil => intro h; simpa using h
  | cons d t ih =>
    intro h
    by_cases hd : p d = true
    · rw [List.dropWhile_cons_of_pos hd]
      exact ih h.tail
    · rwa [List.dropWhile_cons_of_neg hd]

/-- C9: `clean_text` output contains no newline or carriage return, has
no two adjacent whitespace characters, and neither starts nor ends with
whitespace (so the newline inserted for `"=br>"` never survives). -/
theorem c9_clean_text_whitespace :
    ∀ l : List Char,
      (∀ c ∈ clean_text l, c ≠ '\n' ∧ c ≠ '\r') ∧
      List.Chain' noRun (clean_text l) ∧
      (∀ c, (clean_text l).head? = some c → pySpaceB c = false) ∧
      (∀ c, (clean_text l).getLast? = some c → pySpaceB c = false) := by
  intro l
  have hsp : ∀ c ∈ collapseWs (remove8E (subEqDigits (replBr l))), pySpaceB c = true → c = ' ' :=
    fun c hc => collapseGo_space_eq _ false c hc
  have hnr : ∀ c ∈ collapseWs (remove8E (subEqDigits (replBr l))), c ≠ '\r' := by
    intro c hc hcr
    have := hsp c hc (by rw [hcr]; decide)
    rw [hcr] at this
    exact absurd this (by decide)
  have hct : clean_text l =
      pyStripBy pySpaceB (collapseWs (remove8E (subEqDigits (replBr l)))) := by
    rw [clean_text]
    rw [crlfToLf_id _ hnr]
    rfl
  have hmem : ∀ c ∈ clean_text l, c ∈ collapseWs (remove8E (subEqDigits (replBr l))) := by
    intro c hc
    rw [hct] at hc
    obtain ⟨n, hn⟩ := stripEnd_take pySpaceB
      ((collapseWs (remove8E (subEqDigits (replBr l)))).dropWhile pySpaceB)
    rw [pyStripBy, hn] at hc
    exact List.dropWhile_subset pySpaceB (List.take_subset n _ hc)
  refine ⟨?_, ?_, ?_, ?_⟩
  · intro c hc
    constructor
    · intro hlf
      have := hsp c (hmem c hc) (by rw [hlf]; decide)
      rw [hlf] at this
      exact absurd this (by decide)
    · exact fun hcr => hnr c (hmem c hc) hcr
  · rw [hct, pyStripBy]
    obtain ⟨n, hn⟩ := stripEnd_take pySpaceB
      ((collapseWs (remove8E (subEqDigits (replBr l)))).dropWhile pySpaceB)
    rw [hn]
    exact List.Chain'.take (chain_dropWhile pySpaceB _ (collapseGo_chain _ false)) n
  · intro c hc
    rw [hct] at hc
    exact dropWhile_head pySpaceB _ c (stripEnd_head pySpaceB _ c hc)
  · intro c hc
    rw [hct] at hc
    exact stripEnd_last pySpaceB _ c hc

/-- Witness for C9 on a concrete noisy input. -/
theorem c9_witness :
    ('a' ∈ clean_text (cl " a=br>b  c ") ∧ ('a' ≠ '\n' ∧ 'a' ≠ '\r')) ∧
    ((clean_text (cl " a=br>b  c ")).head? = some 'a' ∧ pySpaceB 'a' = false) :=
  ⟨⟨by decide, (c9_clean_text_whitespace (cl " a=br>b  c ")).1 'a' (by decide)⟩,
   ⟨by decide, (c9_clean_text_whitespace (cl " a=br>b  c ")).2.2.1 'a' (by decide)⟩⟩

/-! ## Leftmost-match facts for the two reply-quote searches -/

lemma denTail2_of_take : ∀ {t : List Char} {n : Nat},
    denTail2 (t.take n) = true → denTail2 t = true := by
  intro t
  induction t with
  | nil => intro n h; rw [List.take_nil] at h; exact h
  | cons c r ih =>
    intro n h
    cases n with
    | zero => rw [List.take_zero] at h; simp [denTail2] at h
    | succ m =>
      rw [List.take_succ_cons] at h
      unfold denTail2 at h ⊢
      rcases (Bool.or_eq_true _ _).mp h with h1 | h2
      · refine (Bool.or_eq_true _ _).mpr (Or.inl ?_)
        rw [← List.take_succ_cons] at h1
        exact ipo_of_take h1
      · obtain ⟨hnl, hrec⟩ := (Bool.and_eq_true _ _).mp h2
        exact (Bool.or_eq_true _ _).mpr (Or.inr ((Bool.and_eq_true _ _).mpr ⟨hnl, ih hrec⟩))

lemma denTail1_of_take : ∀ {t : List Char} {n : Nat},
    denTail1 (t.take n) = true → denTail1 t = true := by
  intro t
  induction t with
  | nil => intro n h; rw [List.take_nil] at h; exact h
  | cons c r ih =>
    intro n h
    cases n with
    | zero => rw [List.take_zero] at h; simp [denTail1] at h
    | succ m =>
      rw [List.take_succ_cons] at h
      unfold denTail1 at h ⊢
      rcases (Bool.or_eq_true _ _).mp h with h1 | h2
      · obtain ⟨hk, ht2⟩ := (Bool.and_eq_true _ _).mp h1
        refine (Bool.or_eq_true _ _).mpr (Or.inl ((Bool.and_eq_true _ _).mpr ⟨?_, ?_⟩))
        · rw [← List.take_succ_cons] at hk
          exact ipo_of_take hk
        · have hd : (c :: List.take m r).drop 3 = ((c :: r).drop 3).take (m + 1 - 3) := by
            rw [← List.take_succ_cons, List.drop_take]
          rw [hd] at ht2
          exact denTail2_of_take ht2
      · obtain ⟨hnl, hrec⟩ := (Bool.and_eq_true _ _).mp h2
        exact (Bool.or_eq_true _ _).mpr (Or.inr ((Bool.and_eq_true _ _).mpr ⟨hnl, ih hrec⟩))

lemma denMatchB_of_take {l : List Char} {n : Nat}
    (h : denMatchB (l.take n) = true) : denMatchB l = true := by
  unfold denMatchB at h ⊢
  obtain ⟨hd, ht⟩ := (Bool.and_eq_true _ _).mp h
  refine (Bool.and_eq_true _ _).mpr ⟨ipo_of_take hd, ?_⟩
  rw [List.drop_take] at ht
  exact denTail1_of_take ht

lemma dsrch_some_matchAt : ∀ {L : List Char} {i : Nat},
    denSearch L = some i → denMatchB (L.drop i) = true := by
  intro L
  induction L with
  | nil => intro i h; simp [denSearch] at h
  | cons c t ih =>
    intro i h
    unfold denSearch at h
    by_cases hm : denMatchB (c :: t) = true
    · rw [if_pos hm] at h
      obtain rfl : (0 : Nat) = i := Option.some.inj h
      rw [List.drop_zero]; exact hm
    · rw [if_neg hm] at h
      cases hs : denSearch t with
      | none => rw [hs] at h; simp at h
      | some i' =>
        rw [hs] at h
        simp only [Option.map_some'] at h
        obtain rfl : i' + 1 = i := Option.some.inj h
        rw [List.drop_succ_cons]
        exact ih hs

lemma dsrch_min : ∀ {L : List Char} {i : Nat},
    denSearch L = some i → ∀ j < i, denMatchB (L.drop j) = false := by
  intro L
  induction L with
  | nil => intro i h; simp [denSearch] at h
  | cons c t ih =>
    intro i h j hj
    unfold denSearch at h
    by_cases hm : denMatchB (c :: t) = true
    · rw [if_pos hm] at h
      obtain rfl : (0 : Nat) = i := Option.some.inj h
      omega
    · rw [if_neg hm] at h
      cases hs : denSearch t with
      | none => rw [hs] at h; simp at h
      | some i' =>
        rw [hs] at h
        simp only [Option.map_some'] at h
        obtain rfl : i' + 1 = i := Option.some.inj h
        cases j with
        | zero => rw [List.drop_zero]; exact eq_false_of_ne_true hm
        | succ j' => rw [List.drop_succ_cons]; exact ih hs j' (by omega)

lemma dsrch_none_all : ∀ {L : List Char},
    denSearch L = none → ∀ j, denMatchB (L.drop j) = false := by
  intro L
  induction L with
  | nil => intro _ j; rw [List.drop_nil]; rfl
  | cons c t ih =>
    intro h j
    unfold denSearch at h
    by_cases hm : denMatchB (c :: t) = true
    · rw [if_pos hm] at h; simp at h
    · rw [if_neg hm] at h
      cases j with
      | zero => rw [List.drop_zero]; exact eq_false_of_ne_true hm
      | succ j' =>
        rw [List.drop_succ_cons]
        cases hs : denSearch t with
        | none => exact ih hs j'
        | some i' => rw [hs] at h; simp at h

lemma dsrch_intro_none : ∀ {L : List Char},
    (∀ j, denMatchB (L.drop j) = false) → denSearch L = none := by
  intro L
  induction L with
  | nil => intro _; rfl
  | cons c t ih =>
    intro h
    unfold denSearch
    have h0 := h 0
    rw [List.drop_zero] at h0
    rw [if_neg (by simp [h0])]
    rw [ih (fun j => by rw [← List.drop_succ_cons (n := j) (a := c) (l := t)]; exact h (j + 1))]
    rfl

lemma dsrch_take_self {L : List Char} {i : Nat} (h : denSearch L = some i) :
    denSearch (L.take i) = none := by
  apply dsrch_intro_none
  intro j
  rw [List.drop_take]
  by_cases hj : j < i
  · by_contra hb
    simp only [Bool.not_eq_false] at hb
    have := denMatchB_of_take hb
    simp [dsrch_min h j hj] at this
  · have hz : i - j = 0 := by omega
    rw [hz, List.take_zero]
    rfl

lemma dsrch_none_take {L : List Char} (h : denSearch L = none) (n : Nat) :
    denSearch (L.take n) = none := by
  apply dsrch_intro_none
  intro j
  rw [List.drop_take]
  by_contra hb
  simp only [Bool.not_eq_false] at hb
  have := denMatchB_of_take hb
  simp [dsrch_none_all h j] at this

/-- If `\bwrote:?\b` is findable in a truncation of the region but not in
the full region, the truncation must end exactly inside a `wrote` whose
final boundary only holds against the end of the string — so the
truncated region ends in a word character. -/
lemma onSearchTail_take : ∀ (t : List Char) (prev : Char) (b : Bool) (n : Nat),
    onSearchTail prev b t = false → onSearchTail prev b (t.take n) = true →
    ∃ wc, (t.take n).getLast? = some wc ∧ wordChar wc = true := by
  intro t
  induction t with
  | nil =>
    intro prev b n _ ht
    rw [List.take_nil] at ht
    simp [onSearchTail] at ht
  | cons c r ih =>
    intro prev b n hf ht
    cases n with
    | zero => rw [List.take_zero] at ht; simp [onSearchTail] at ht
    | succ m =>
      rw [List.take_succ_cons] at ht ⊢
      unfold onSearchTail at hf ht
      have hfparts := Bool.or_eq_false_iff.mp hf
      rcases (Bool.or_eq_true _ _).mp ht with hw | hbr
      · obtain ⟨hnw, hrest⟩ := (Bool.and_eq_true _ _).mp hw
        obtain ⟨hipo, hend⟩ := (Bool.and_eq_true _ _).mp hrest
        have hipoFull : (cl "wrote").isPrefixOf (c :: r) = true := by
          apply ipo_of_take (n := m + 1)
          rw [List.take_succ_cons]
          exact hipo
        have hendFull : endBdry ((c :: r).drop 5) = false := by
          have hfw := hfparts.1
          unfold wroteHere at hfw
          rw [hnw, hipoFull] at hfw
          simpa using hfw
        have hrel : (c :: List.take m r).drop 5 = ((c :: r).drop 5).take (m + 1 - 5) := by
          rw [← List.take_succ_cons, List.drop_take]
        rw [hrel] at hend
        cases hfull5 : (c :: r).drop 5 with
        | nil =>
          exfalso
          rw [hfull5] at hendFull
          simp [endBdry] at hendFull
        | cons f fs =>
          rw [hfull5] at hend
          cases hk : m + 1 - 5 with
          | zero =>
            have hlen5 : (c :: List.take m r).length ≤ 5 := by
              simp only [List.length_cons, List.length_take]
              omega
            have hlw : (cl "wrote").length = 5 := by decide
            have hlist : c :: List.take m r = cl "wrote" :=
              ipo_eq_of_length hipo (by omega)
            exact ⟨'e', by rw [hlist]; decide, by decide⟩
          | succ k =>
            exfalso
            rw [hk, List.take_succ_cons] at hend
            rw [hfull5] at hendFull
            unfold endBdry at hend hendFull
            rw [hendFull] at hend
            exact absurd hend (by simp)
      · by_cases hbc : (b && pySpaceB c) = true
        · rw [if_pos hbc] at hbr
          have hfb : onSearchTail c true r = false := by
            have := hfparts.2
            rwa [if_pos hbc] at this
          obtain ⟨wc, h1, h2⟩ := ih c true m hfb hbr
          refine ⟨wc, ?_, h2⟩
          cases htk : List.take m r with
          | nil => rw [htk] at h1; simp at h1
          | cons e es => rw [htk] at h1; rw [List.getLast?_cons_cons]; exact h1
        · rw [if_neg hbc] at hbr
          by_cases hnl : c = '\n'
          · rw [if_pos hnl] at hbr; simp at hbr
          · rw [if_neg hnl] at hbr
            have hfb : onSearchTail c false r = false := by
              have := hfparts.2
              rw [if_neg hbc, if_neg hnl] at this
              exact this
            obtain ⟨wc, h1, h2⟩ := ih c false m hfb hbr
            refine ⟨wc, ?_, h2⟩
            cases htk : List.take m r with
            | nil => rw [htk] at h1; simp at h1
            | cons e es => rw [htk] at h1; rw [List.getLast?_cons_cons]; exact h1

/-- The character preceding position `i`, seeded with `prev` before the
start of the list. -/
def prevOf (prev : Option Char) (L : List Char) (i : Nat) : Option Char :=
  match (L.take i).getLast? with
  | some pc => some pc
  | none => prev

lemma onSearch_bound : ∀ (L : List Char) (prev : Option Char) (i : Nat),
    onSearch prev L = some i → onMatchB (prevOf prev L i) (L.drop i) = true := by
  intro L
  induction L with
  | nil => intro prev i h; simp [onSearch] at h
  | cons c t ih =>
    intro prev i h
    unfold onSearch at h
    by_cases hm : onMatchB prev (c :: t) = true
    · rw [if_pos hm] at h
      obtain rfl : (0 : Nat) = i := Option.some.inj h
      simpa [prevOf] using hm
    · rw [if_neg hm] at h
      cases hs : onSearch (some c) t with
      | none => rw [hs] at h; simp at h
      | some i' =>
        rw [hs] at h
        simp only [Option.map_some'] at h
        obtain rfl : i' + 1 = i := Option.some.inj h
        have hb := ih (some c) i' hs
        have hpe : prevOf prev (c :: t) (i' + 1) = prevOf (some c) t i' := by
          unfold prevOf
          rw [List.take_succ_cons]
          cases hg : (t.take i').getLast? with
          | none =>
            have htk : t.take i' = [] := List.getLast?_eq_none_iff.mp hg
            rw [htk]
            rfl
          | some pc =>
            cases htk : t.take i' with
            | nil => rw [htk] at hg; simp at hg
            | cons e es =>
              rw [htk] at hg
              rw [List.getLast?_cons_cons, hg]
        rw [List.drop_succ_cons, hpe]
        exact hb

lemma onSearch_take_self : ∀ (L : List Char) (prev : Option Char) (i : Nat),
    onSearch prev L = some i → onSearch prev (L.take i) = none := by
  intro L
  induction L with
  | nil => intro prev i h; simp [onSearch] at h
  | cons c t ih =>
    intro prev i h
    unfold onSearch at h
    by_cases hm : onMatchB prev (c :: t) = true
    · rw [if_pos hm] at h
      obtain rfl : (0 : Nat) = i := Option.some.inj h
      rw [List.take_zero]
      rfl
    · rw [if_neg hm] at h
      cases hs : onSearch (some c) t with
      | none => rw [hs] at h; simp at h
      | some i' =>
        rw [hs] at h
        simp only [Option.map_some'] at h
        obtain rfl : i' + 1 = i := Option.some.inj h
        rw [List.take_succ_cons]
        unfold onSearch
        have hnm : ¬ onMatchB prev (c :: t.take i') = true := by
          intro hmt
          unfold onMatchB at hmt
          obtain ⟨hbp, hrest⟩ := (Bool.and_eq_true _ _).mp hmt
          obtain ⟨hon, hmat⟩ := (Bool.and_eq_true _ _).mp hrest
          have honFull : (cl "on").isPrefixOf (c :: t) = true := by
            apply ipo_of_take (n := i' + 1)
            rw [List.take_succ_cons]
            exact hon
          obtain ⟨r0, hr0⟩ := ipo_decomp hon
          have hc : c = 'o' := (List.cons.inj hr0).1
          have ht0 : t.take i' = 'n' :: r0 := by
            have := (List.cons.inj hr0).2
            simpa using this
          have htn : ∃ t2, t = 'n' :: t2 := by
            cases ht : t with
            | nil => rw [ht] at ht0; simp at ht0
            | cons x t2 =>
              refine ⟨t2, ?_⟩
              rw [ht] at ht0
              cases hi0 : i' with
              | zero => rw [hi0] at ht0; simp at ht0
              | succ j =>
                rw [hi0, List.take_succ_cons] at ht0
                rw [(List.cons.inj ht0).1]
          obtain ⟨t2, ht2⟩ := htn
          have hr0eq : r0 = (t2).take (i' - 1) := by
            rw [ht2] at ht0
            cases hi0 : i' with
            | zero => rw [hi0] at ht0; simp at ht0
            | succ j =>
              rw [hi0, List.take_succ_cons] at ht0
              have := (List.cons.inj ht0).2
              rw [← this]
              simp [hi0]
          -- the match component of hmt, on (c :: t.take i').drop 2 = r0
          have hdrop2 : (c :: t.take i').drop 2 = r0 := by
            rw [ht0]
            rfl
          rw [hdrop2] at hmat
          cases hr0c : r0 with
          | nil => rw [hr0c] at hmat; simp at hmat
          | cons d rr =>
            rw [hr0c] at hmat
            obtain ⟨hsp, htail⟩ := (Bool.and_eq_true _ _).mp hmat
            -- decompose t2 as d :: r2 with rr = r2.take (i' - 2)
            have ht2d : ∃ r2, t2 = d :: r2 ∧ rr = r2.take (i' - 2) := by
              have h1 : t2.take (i' - 1) = d :: rr := by rw [← hr0eq, hr0c]
              cases ht2c : t2 with
              | nil => rw [ht2c] at h1; simp at h1
              | cons x r2 =>
                rw [ht2c] at h1
                cases hi1 : i' - 1 with
                | zero => rw [hi1] at h1; simp at h1
                | succ j =>
                  rw [hi1, List.take_succ_cons] at h1
                  refine ⟨r2, by rw [(List.cons.inj h1).1], ?_⟩
                  have := (List.cons.inj h1).2
                  rw [← this]
                  congr 1
                  omega
            obtain ⟨r2, hr2, hrr⟩ := ht2d
            -- the full-side tail must fail
            have hfullTail : onSearchTail d true r2 = false := by
              by_contra hcon
              simp only [Bool.not_eq_false] at hcon
              apply hm
              unfold onMatchB
              refine (Bool.and_eq_true _ _).mpr ⟨hbp, (Bool.and_eq_true _ _).mpr ⟨honFull, ?_⟩⟩
              have : (c :: t).drop 2 = d :: r2 := by
                rw [ht2, hr2]
                rfl
              rw [this]
              exact (Bool.and_eq_true _ _).mpr ⟨hsp, hcon⟩
            rw [hrr] at htail
            obtain ⟨wc, hwc1, hwc2⟩ := onSearchTail_take r2 d true (i' - 2) hfullTail htail
            -- the boundary at the found match position i' in t
            have hbnd := onSearch_bound t (some c) i' hs
            unfold onMatchB at hbnd
            have hbchk := ((Bool.and_eq_true _ _).mp hbnd).1
            -- prevOf (some c) t i' = some wc
            have hlast : (t.take i').getLast? = some wc := by
              rw [ht0, hr0c]
              rw [List.getLast?_cons_cons]
              cases hrc : rr with
              | nil =>
                exfalso
                rw [hrc] at hrr
                rw [← hrr] at hwc1
                simp at hwc1
              | cons y ys =>
                rw [List.getLast?_cons_cons]
                rw [← hrc, hrr]
                exact hwc1
            have hpv : prevOf (some c) t i' = some wc := by
              unfold prevOf
              rw [hlast]
            rw [hpv] at hbchk
            have hbr : bchk (some wc) = !wordChar wc := rfl
            rw [hbr, hwc2] at hbchk
            simp at hbchk
        rw [if_neg hnm]
        rw [ih (some c) i' hs]
        rfl

/-! ## Idempotence of the trimming passes on asterisk-free input -/

lemma lower_take (l : List Char) (n : Nat) : lowerL (l.take n) = (lowerL l).take n :=
  List.map_take lowCh l n

lemma find_clean_take {pat r : List Char} (h : findSub pat (lowerL r) = none) (n : Nat) :
    findSub pat (lowerL (r.take n)) = none := by
  rw [lower_take]; exact fs_none_take h n

lemma den_clean_take {r : List Char} (h : denSearch (lowerL r) = none) (n : Nat) :
    denSearch (lowerL (r.take n)) = none := by
  rw [lower_take]; exact dsrch_none_take h n

lemma cutFind_none_of {pat r : List Char} (h : findSub pat (lowerL r) = none) :
    cutFind pat r = r := by
  unfold cutFind; rw [h]

lemma disclaimer_none_of {r : List Char}
    (h : findSub (cl "the information contained in this") (lowerL r) = none) :
    disclaimerCut r = r := by
  unfold disclaimerCut; rw [h]

lemma denPass_none_of {r : List Char} (h : denSearch (lowerL r) = none) : denPass r = r := by
  unfold denPass; rw [h]

lemma onPass_none_of {r : List Char} (h : onSearch none (lowerL r) = none) : onPass r = r := by
  unfold onPass; rw [h]

lemma cutFind_clean {pat : List Char} (hp : pat ≠ []) (l : List Char) :
    findSub pat (lowerL (cutFind pat l)) = none := by
  unfold cutFind
  cases h : findSub pat (lowerL l) with
  | some i =>
    show findSub pat (lowerL (l.take i)) = none
    rw [lower_take]
    exact fs_some_take hp h
  | none => exact h

lemma disclaimerCut_clean (l : List Char) :
    findSub (cl "the information contained in this") (lowerL (disclaimerCut l)) = none := by
  unfold disclaimerCut
  cases h : findSub (cl "the information contained in this") (lowerL l) with
  | none => exact h
  | some i =>
    have hbase : findSub (cl "the information contained in this") (lowerL (l.take i)) = none := by
      rw [lower_take]
      exact fs_some_take (by decide) h
    dsimp only
    cases h2 : findSub (cl "please note") (lowerL (l.take i)) with
    | none => exact hbase
    | some j =>
      show findSub _ (lowerL ((l.take i).take j)) = none
      exact find_clean_take hbase j

lemma denPass_clean (l : List Char) : denSearch (lowerL (denPass l)) = none := by
  unfold denPass
  cases h : denSearch (lowerL l) with
  | none => exact h
  | some i =>
    show denSearch (lowerL (l.take i)) = none
    rw [lower_take]
    exact dsrch_take_self h

lemma onPass_clean (l : List Char) : onSearch none (lowerL (onPass l)) = none := by
  unfold onPass
  cases h : onSearch none (lowerL l) with
  | none => exact h
  | some i =>
    show onSearch none (lowerL (l.take i)) = none
    rw [lower_take]
    exact onSearch_take_self _ none i h

lemma chain3_take (l : List Char) :
    ∃ n, onPass (denPass (cutFind (cl "sendt fra min ") l)) = l.take n := by
  obtain ⟨b, hb⟩ := cutFind_take (cl "sendt fra min ") l
  obtain ⟨c, hc⟩ := denPass_take (l.take b)
  obtain ⟨d, hd⟩ := onPass_take ((l.take b).take c)
  exact ⟨min (min d c) b, by rw [hb, hc, hd, List.take_take, List.take_take]⟩

lemma chain2_take (l : List Char) : ∃ n, onPass (denPass l) = l.take n := by
  obtain ⟨c, hc⟩ := denPass_take l
  obtain ⟨d, hd⟩ := onPass_take (l.take c)
  exact ⟨min d c, by rw [hc, hd, List.take_take]⟩

lemma starStrip_id {l : List Char} (h : ∀ c ∈ l, c ≠ '*') : starStrip l = l := by
  unfold starStrip
  exact List.filter_eq_self.mpr (fun a ha => by simpa using h a ha)

/-- C5 (amended): on bodies containing no asterisk, `remove_trailing_text`
is idempotent — every truncation pass leaves no further occurrence or
match in its output, and the passes only shorten prefixes, so a second
application changes nothing. -/
theorem c5_trim_idempotent_star_free :
    ∀ body : List Char, (∀ c ∈ body, c ≠ '*') →
      remove_trailing_text (remove_trailing_text body) = remove_trailing_text body := by
  intro body hstar
  obtain ⟨q, hq⟩ := truncPasses_take body
  have hgstar : ∀ c ∈ truncPasses body, c ≠ '*' := by
    intro c hc
    rw [hq] at hc
    exact hstar c (List.take_subset q body hc)
  have hfirst : remove_trailing_text body = truncPasses body := by
    rw [remove_trailing_text, starStrip_id hgstar]
  rw [hfirst]
  set g := truncPasses body with hg
  have h1 : findSub (cl "the information contained in this") (lowerL g) = none := by
    rw [hg, truncPasses]
    obtain ⟨n, hn⟩ := later_take (disclaimerCut body)
    rw [hn]
    exact find_clean_take (disclaimerCut_clean body) n
  have h2 : findSub (cl "sent from my ") (lowerL g) = none := by
    rw [hg, truncPasses]
    obtain ⟨n, hn⟩ := chain3_take (cutFind (cl "sent from my ") (disclaimerCut body))
    rw [hn]
    exact find_clean_take (cutFind_clean (by decide) _) n
  have h3 : findSub (cl "sendt fra min ") (lowerL g) = none := by
    rw [hg, truncPasses]
    obtain ⟨n, hn⟩ := chain2_take
      (cutFind (cl "sendt fra min ") (cutFind (cl "sent from my ") (disclaimerCut body)))
    rw [hn]
    exact find_clean_take (cutFind_clean (by decide) _) n
  have h4 : denSearch (lowerL g) = none := by
    rw [hg, truncPasses]
    obtain ⟨n, hn⟩ := onPass_take (denPass (cutFind (cl "sendt fra min ")
      (cutFind (cl "sent from my ") (disclaimerCut body))))
    rw [hn]
    exact den_clean_take (denPass_clean _) n
  have h5 : onSearch none (lowerL g) = none := by
    rw [hg, truncPasses]
    exact onPass_clean _
  rw [remove_trailing_text, truncPasses, disclaimer_none_of h1, cutFind_none_of h2,
    cutFind_none_of h3, denPass_none_of h4, onPass_none_of h5]
  exact starStrip_id (hg ▸ hgstar)

set_option maxRecDepth 32768 in
/-- C5 as stated fails: asterisk removal happens after the truncation
passes, so deleting the asterisk inside `se*nt from my ` creates a fresh
mobile-signature match that only a second application cuts. -/
theorem c5_counterexample :
    remove_trailing_text (remove_trailing_text (cl "a se*nt from my iphone")) ≠
      remove_trailing_text (cl "a se*nt from my iphone") := by decide

set_option maxRecDepth 32768 in
/-- Witness for C5 on an asterisk-free body which the first application
truncates. -/
theorem c5_witness :
    (∀ c ∈ cl "ab sent from my iphone", c ≠ '*') ∧
    remove_trailing_text (remove_trailing_text (cl "ab sent from my iphone")) =
      remove_trailing_text (cl "ab sent from my iphone") :=
  ⟨by decide, c5_trim_idempotent_star_free (cl "ab sent from my iphone") (by decide)⟩
